import Mathlib

/-!
Verification of the `btorrent` BitTorrent client library against its
specification.  The Python sources under `src/btorrent/` are shallowly
embedded below: bytes are `List Nat`, Python runtime values decoded from
bencode are the mutual inductive `PyVal`, fallible code returns `Except`,
and stateful code is modelled by explicit state passing.
-/

set_option maxHeartbeats 1000000
set_option maxRecDepth 100000

deriving instance DecidableEq for Except

namespace BTor

/-! ## Byte-level helpers -/

/-- ASCII lowercasing of a single byte, as Python `bytes.lower` does per byte. -/
def lowerByte (b : Nat) : Nat := if 65 ≤ b ∧ b ≤ 90 then b + 32 else b

/-- Python `bytes.lower`: ASCII-lowercase every byte. -/
def lowerBytes (s : List Nat) : List Nat := s.map lowerByte

/-- A byte holds an ASCII decimal digit (Python `bytes.isdigit` per byte). -/
def isDigit (b : Nat) : Bool := 48 ≤ b && b ≤ 57

/-- Lexicographic strict comparison of byte strings (Python `bytes.__lt__`). -/
def bytesLt : List Nat → List Nat → Bool
  | [], [] => false
  | [], _ :: _ => true
  | _ :: _, [] => false
  | a :: as, b :: bs => if a < b then true else if b < a then false else bytesLt as bs

/-- Lexicographic non-strict comparison of byte strings (Python `bytes.__le__`). -/
def bytesLe (x y : List Nat) : Bool := bytesLt x y || x == y

/-- Decimal digits (ASCII codes, most significant first) of a natural number;
`acc` accumulates already-produced low digits.  The first argument is a
recursion budget: `n` itself always suffices since a number has at most as
many digits as its value. -/
def natToDecAux : Nat → Nat → List Nat → List Nat
  | 0, _, acc => acc
  | f + 1, n, acc => if n = 0 then acc else natToDecAux f (n / 10) ((48 + n % 10) :: acc)

/-- ASCII decimal rendering of a natural number, as Python `str` produces. -/
def natToDec (n : Nat) : List Nat := if n = 0 then [48] else natToDecAux n n []

/-- ASCII decimal rendering of an integer, as Python `str(int)` produces:
an optional leading `-` followed by the digits of the absolute value. -/
def intToDec (i : Int) : List Nat :=
  if i < 0 then 45 :: natToDec i.natAbs else natToDec i.toNat

/-- Numeric value of a list of ASCII digit bytes, most significant first. -/
def digitsVal (l : List Nat) : Nat := l.foldl (fun a d => a * 10 + (d - 48)) 0

/-! ## The Python value model

`PyVal` models the Python runtime values produced and consumed by the bencode
codec in `src/btorrent/bencode/__init__.py`: integers, byte strings, lists,
dictionaries, and `None` (which the decoder uses as the end-of-container
sentinel and which the encoder rejects as unencodable).  A Python `dict` is
modelled as an insertion-ordered association list; Python guarantees its keys
unique, which `PyDict` does not enforce, so faithfulness statements about
dictionaries assume key uniqueness where it matters. -/

mutual
inductive PyVal : Type where
  | int (i : Int)
  | str (s : List Nat)
  | list (xs : PyList)
  | dict (kvs : PyDict)
  | none
  deriving DecidableEq
inductive PyList : Type where
  | nil
  | cons (hd : PyVal) (tl : PyList)
  deriving DecidableEq
inductive PyDict : Type where
  | nil
  | cons (key : List Nat) (val : PyVal) (tl : PyDict)
  deriving DecidableEq
end

mutual
/-- Structural size of a value, used as the encoder's recursion budget. -/
def pySize : PyVal → Nat
  | .int _ => 1
  | .str _ => 1
  | .list xs => 1 + pySizeL xs
  | .dict kvs => 1 + pySizeD kvs
  | .none => 1
/-- Structural size of a list of values. -/
def pySizeL : PyList → Nat
  | .nil => 1
  | .cons x tl => 1 + pySize x + pySizeL tl
/-- Structural size of an association list. -/
def pySizeD : PyDict → Nat
  | .nil => 1
  | .cons _ v tl => 1 + pySize v + pySizeD tl
end

/-- Keys of a dictionary, in insertion order. -/
def pdKeys : PyDict → List (List Nat)
  | .nil => []
  | .cons k _ tl => k :: pdKeys tl

/-- Concatenation of two association lists. -/
def pdAppend : PyDict → PyDict → PyDict
  | .nil, d => d
  | .cons k v tl, d => .cons k v (pdAppend tl d)

/-- Python `res[k] = v` on a dict: replace the value in place if the key is
present, otherwise append the pair at the end (insertion order). -/
def pdAssign : PyDict → List Nat → PyVal → PyDict
  | .nil, k, v => .cons k v .nil
  | .cons k' v' tl, k, v =>
      if k' = k then .cons k' v tl else .cons k' v' (pdAssign tl k v)

/-! ## Bencode encoder (`_encode*` in `src/btorrent/bencode/__init__.py`) -/

/-- Errors raised by the encoder: `TypeError` for unencodable values.
`fuel` is a model artifact marking exhaustion of the recursion budget;
`pyEncode` supplies enough that it is unreachable (`pyEncodeF_no_fuel`). -/
inductive EncErr : Type where
  | typeErr
  | fuel
  deriving DecidableEq

/-- `_encode_buffer`: ASCII decimal length, `:` (58), then the raw bytes. -/
def encBuffer (s : List Nat) : List Nat := natToDec s.length ++ 58 :: s

/-- One insertion step of the stable sort modelling Python `sorted`. -/
def pdInsert (k : List Nat) (v : PyVal) : PyDict → PyDict
  | .nil => .cons k v .nil
  | .cons k' v' tl =>
      if bytesLe k k' then .cons k v (.cons k' v' tl)
      else .cons k' v' (pdInsert k v tl)

/-- Python `sorted` over the dictionary items, keyed by the raw key bytes.
Python sorts the unique keys and looks each value up; for a dict (whose keys
are unique) that is the same as stably sorting the pairs by key, which is
what this insertion sort computes. -/
def pdSort : PyDict → PyDict
  | .nil => .nil
  | .cons k v tl => pdInsert k v (pdSort tl)

mutual
/-- `_encode`: dispatch on the runtime type, `TypeError` for anything else
(here: `None`).  `_encode_int` writes `i`, the decimal text, `e`;
byte strings are length-prefixed; lists are `l … e`; dicts are `d … e`
with pairs emitted in sorted key order.  The `Nat` argument is a recursion
budget so the definition stays kernel-computable; `sizeOf` strictly
decreases along every recursive call (`pdSort` preserves it), so the budget
`pyEncode` supplies is never exhausted. -/
def pyEncodeF : Nat → PyVal → Except EncErr (List Nat)
  | 0, _ => .error .fuel
  | _ + 1, .int i => .ok (105 :: (intToDec i ++ [101]))
  | _ + 1, .str s => .ok (encBuffer s)
  | fuel + 1, .list xs => do
      let body ← pyEncodeItemsF fuel xs
      .ok (108 :: (body ++ [101]))
  | fuel + 1, .dict kvs => do
      let body ← pyEncodePairsF fuel (pdSort kvs)
      .ok (100 :: (body ++ [101]))
  | _ + 1, .none => .error .typeErr
/-- `_encode_list`: encode the items in order. -/
def pyEncodeItemsF : Nat → PyList → Except EncErr (List Nat)
  | 0, _ => .error .fuel
  | _ + 1, .nil => .ok []
  | fuel + 1, .cons x tl => do
      let bx ← pyEncodeF fuel x
      let btl ← pyEncodeItemsF fuel tl
      .ok (bx ++ btl)
/-- `_encode_dict` body: each pair is the length-prefixed key then the
encoded value.  The caller passes the pairs already sorted. -/
def pyEncodePairsF : Nat → PyDict → Except EncErr (List Nat)
  | 0, _ => .error .fuel
  | _ + 1, .nil => .ok []
  | fuel + 1, .cons k v tl => do
      let bv ← pyEncodeF fuel v
      let btl ← pyEncodePairsF fuel tl
      .ok (encBuffer k ++ (bv ++ btl))
end

/-- `encode` on a fresh output buffer: run `_encode` with a sufficient
recursion budget. -/
def pyEncode (v : PyVal) : Except EncErr (List Nat) := pyEncodeF (pySize v + 1) v

/-! ## Bencode decoder (`_decode*` in `src/btorrent/bencode/__init__.py`) -/

/-- Errors raised by the decoder: `EOFError`, `ValueError`, `TypeError`
(non-bytes dictionary key).  `fuel` is a model artifact marking exhaustion
of the recursion budget; `decode_from_buffer` supplies enough fuel that it
is unreachable on any input a claim evaluates. -/
inductive DecErr : Type where
  | eof
  | valueErr
  | typeErr
  | fuel
  deriving DecidableEq

/-- Model of Python `int()` on the byte strings the decoder collects: an
optional sign followed by one or more ASCII digits.  (CPython additionally
strips whitespace and underscores; no input in this development contains
those.)  Note `int(b"-0")` is `0`: no canonicality check is performed. -/
def pyIntParse (l : List Nat) : Except DecErr Int :=
  match l with
  | [] => .error .valueErr
  | b :: ds =>
      if b = 45 then
        if ds ≠ [] ∧ ds.all isDigit then .ok (-(digitsVal ds : Int)) else .error .valueErr
      else if b = 43 then
        if ds ≠ [] ∧ ds.all isDigit then .ok (digitsVal ds) else .error .valueErr
      else
        if (b :: ds).all isDigit then .ok (digitsVal (b :: ds)) else .error .valueErr

/-- `_decode_int`'s scan: collect bytes until the terminating `e` (101),
`EOFError` if the stream ends first. -/
def readUntilE : List Nat → Except DecErr (List Nat × List Nat)
  | [] => .error .eof
  | b :: s =>
      if b = 101 then .ok ([], s)
      else do
        let (ds, r) ← readUntilE s
        .ok (b :: ds, r)

/-- `_decode_buffer`'s scan: collect digit bytes until the `:` (58);
`EOFError` at end of stream, `ValueError` on a non-digit. -/
def readDigits : List Nat → Except DecErr (List Nat × List Nat)
  | [] => .error .eof
  | b :: s =>
      if b = 58 then .ok ([], s)
      else if isDigit b then do
        let (ds, r) ← readDigits s
        .ok (b :: ds, r)
      else .error .valueErr

/-- `_decode_int`: scan to `e`, then Python `int()` on the collected bytes. -/
def decodeInt (s : List Nat) : Except DecErr (PyVal × List Nat) := do
  let (ds, r) ← readUntilE s
  let i ← pyIntParse ds
  .ok (.int i, r)

/-- `_decode_buffer`: scan the decimal length up to `:`, then read that many
bytes (fewer if the stream ends early, as Python `read` does). -/
def decodeBuffer (s : List Nat) : Except DecErr (PyVal × List Nat) := do
  let (ds, r) ← readDigits s
  let n := digitsVal ds
  .ok (.str (r.take n), r.drop n)

mutual
/-- `_decode`: the first byte selects the production.  `i` is an integer,
`l` a list, `d` a dict, `e` the container-end sentinel (`None` in Python),
a digit begins a length-prefixed byte string (the digit is part of the
length), anything else — including end of stream — is `ValueError`. -/
def pyDecode : Nat → List Nat → Except DecErr (PyVal × List Nat)
  | 0, _ => .error .fuel
  | _ + 1, [] => .error .valueErr
  | fuel + 1, t :: s =>
      if t = 105 then decodeInt s
      else if t = 108 then do
        let (xs, r) ← pyDecodeList fuel s
        .ok (.list xs, r)
      else if t = 100 then do
        let (kvs, r) ← pyDecodeDict fuel .nil s
        .ok (.dict kvs, r)
      else if t = 101 then .ok (.none, s)
      else if isDigit t then decodeBuffer (t :: s)
      else .error .valueErr
/-- `_decode_list`: collect decoded values until the `None` sentinel. -/
def pyDecodeList : Nat → List Nat → Except DecErr (PyList × List Nat)
  | 0, _ => .error .fuel
  | fuel + 1, s => do
      let (v, r) ← pyDecode fuel s
      match v with
      | .none => .ok (.nil, r)
      | v => do
          let (xs, r') ← pyDecodeList fuel r
          .ok (.cons v xs, r')
/-- `_decode_dict`: alternately decode a key (which must be a byte string,
else `TypeError`) and a value until the `None` sentinel; each pair is stored
with `res[k.lower()] = v`, i.e. the key is ASCII-lowercased. -/
def pyDecodeDict : Nat → PyDict → List Nat → Except DecErr (PyDict × List Nat)
  | 0, _, _ => .error .fuel
  | fuel + 1, acc, s => do
      let (k, r) ← pyDecode fuel s
      match k with
      | .none => .ok (acc, r)
      | .str kb => do
          let (v, r') ← pyDecode fuel r
          pyDecodeDict fuel (pdAssign acc (lowerBytes kb) v) r'
      | _ => .error .typeErr
end

/-- `decode_from_buffer`: run the decoder on the whole buffer.  The fuel
`2·|buf| + 3` bounds the decoder's call depth, which Python bounds only by
its recursion limit; it is more than any input of this length can consume. -/
def decode_from_buffer (buf : List Nat) : Except DecErr PyVal :=
  (pyDecode (2 * buf.length + 3) buf).map Prod.fst

/-- Digits of a positive number; empty for zero. -/
def natDigs (n : Nat) : List Nat := natToDecAux n n []

/-! ## Well-formedness predicates and decode budgets -/

/-- No ASCII uppercase byte: `bytes.lower` leaves the string unchanged. -/
def lowerStable : List Nat → Bool
  | [] => true
  | b :: s => !(decide (65 ≤ b ∧ b ≤ 90)) && lowerStable s

/-- Strictly ascending key chain: canonical bencode key order (implies the
keys are pairwise distinct, as they are in a Python dict). -/
def keysSorted : PyDict → Bool
  | .nil => true
  | .cons _ _ .nil => true
  | .cons k _ (.cons k' v' tl) => bytesLt k k' && keysSorted (.cons k' v' tl)

mutual
/-- The claim's "well-formed bencode value": no `None` anywhere, and every
dictionary in canonical (strictly ascending) key order. -/
def wfVal : PyVal → Bool
  | .int _ => true
  | .str _ => true
  | .list xs => wfList xs
  | .dict kvs => keysSorted kvs && wfDict kvs
  | .none => false
/-- `wfVal` on every element. -/
def wfList : PyList → Bool
  | .nil => true
  | .cons x tl => wfVal x && wfList tl
/-- `wfVal` on every dictionary value. -/
def wfDict : PyDict → Bool
  | .nil => true
  | .cons _ v tl => wfVal v && wfDict tl
end

mutual
/-- Every dictionary key anywhere in the value is lowercase-stable (contains
no ASCII uppercase byte). -/
def lowVal : PyVal → Bool
  | .int _ => true
  | .str _ => true
  | .list xs => lowList xs
  | .dict kvs => lowDict kvs
  | .none => true
/-- `lowVal` on every element. -/
def lowList : PyList → Bool
  | .nil => true
  | .cons x tl => lowVal x && lowList tl
/-- `lowVal` on every value, `lowerStable` on every key. -/
def lowDict : PyDict → Bool
  | .nil => true
  | .cons k v tl => lowerStable k && (lowVal v && lowDict tl)
end

mutual
/-- Fuel the decoder needs on the encoding of a value. -/
def costV : PyVal → Nat
  | .int _ => 1
  | .str _ => 1
  | .list xs => 1 + costL xs
  | .dict kvs => 1 + costD kvs
  | .none => 1
/-- Fuel `_decode_list` needs on the encoded items plus terminator. -/
def costL : PyList → Nat
  | .nil => 2
  | .cons x tl => 1 + max (costV x) (costL tl)
/-- Fuel `_decode_dict` needs on the encoded pairs plus terminator. -/
def costD : PyDict → Nat
  | .nil => 2
  | .cons _ v tl => 1 + max 1 (max (costV v) (costD tl))
end

/-! ## Sortedness of the encoder's key order -/

/-- Non-strict ascending key chain: what `sorted` guarantees in general. -/
def keysSortedLe : PyDict → Bool
  | .nil => true
  | .cons _ _ .nil => true
  | .cons k _ (.cons k' v' tl) => bytesLe k k' && keysSortedLe (.cons k' v' tl)

/-! ## SHA-1 (`hashlib.sha1(...).digest()` in `src/btorrent/metadata.py`)

A direct executable SHA-1 over byte lists, all 32-bit arithmetic done in
`Nat` with explicit `% 2^32`. -/

/-- Rotate a 32-bit word left by `k` (for `n < 2^32`, `k ≤ 32`). -/
def rotl (k n : Nat) : Nat := (n * 2 ^ k + n / 2 ^ (32 - k)) % 4294967296

/-- Bitwise complement of a 32-bit word. -/
def not32 (b : Nat) : Nat := 4294967295 - b

/-- The SHA-1 round function for round `t`. -/
def sha1f (t b c d : Nat) : Nat :=
  if t < 20 then (b &&& c) ||| (not32 b &&& d)
  else if t < 40 then (b ^^^ c) ^^^ d
  else if t < 60 then ((b &&& c) ||| (b &&& d)) ||| (c &&& d)
  else (b ^^^ c) ^^^ d

/-- The SHA-1 round constant for round `t`. -/
def sha1k (t : Nat) : Nat :=
  if t < 20 then 1518500249
  else if t < 40 then 1859775393
  else if t < 60 then 2400959708
  else 3395469782

/-- Big-endian byte rendering of `n` on `k` bytes. -/
def beBytes : Nat → Nat → List Nat
  | 0, _ => []
  | k + 1, n => beBytes k (n / 256) ++ [n % 256]

/-- Big-endian value of a byte list (Python `int.from_bytes(l, "big")`). -/
def beVal (l : List Nat) : Nat := l.foldl (fun a b => a * 256 + b % 256) 0

/-- Split a byte list into big-endian 32-bit words (budgeted recursion). -/
def bytesToWords : Nat → List Nat → List Nat
  | 0, _ => []
  | _ + 1, [] => []
  | f + 1, l => beVal (l.take 4) :: bytesToWords f (l.drop 4)

/-- One message-schedule extension step: `rotl1 (w[t-3]^w[t-8]^w[t-14]^w[t-16])`. -/
def sha1ExtStep (w : List Nat) : Nat :=
  rotl 1 (((w.getD (w.length - 3) 0) ^^^ (w.getD (w.length - 8) 0)) ^^^
    ((w.getD (w.length - 14) 0) ^^^ (w.getD (w.length - 16) 0)))

/-- Extend the 16-word schedule by `f` more words. -/
def sha1Extend : Nat → List Nat → List Nat
  | 0, w => w
  | f + 1, w => sha1Extend f (w ++ [sha1ExtStep w])

/-- One SHA-1 round on the five-word state. -/
def sha1Round (st : Nat × Nat × Nat × Nat × Nat) (tw : Nat × Nat) :
    Nat × Nat × Nat × Nat × Nat :=
  match st, tw with
  | (a, b, c, d, e), (t, wt) =>
      ((rotl 5 a + sha1f t b c d + e + sha1k t + wt) % 4294967296, a, rotl 30 b, c, d)

/-- Process one 64-byte chunk. -/
def sha1Chunk (h : Nat × Nat × Nat × Nat × Nat) (chunk : List Nat) :
    Nat × Nat × Nat × Nat × Nat :=
  let w := sha1Extend 64 (bytesToWords 16 chunk)
  match h, ((List.range 80).zip w).foldl sha1Round h with
  | (h0, h1, h2, h3, h4), (a, b, c, d, e) =>
      ((h0 + a) % 4294967296, (h1 + b) % 4294967296, (h2 + c) % 4294967296,
        (h3 + d) % 4294967296, (h4 + e) % 4294967296)

/-- SHA-1 padding: `0x80`, zeros to 56 mod 64, then the 64-bit bit length. -/
def sha1Pad (msg : List Nat) : List Nat :=
  msg ++ 128 :: (List.replicate ((119 - msg.length % 64) % 64) 0 ++ beBytes 8 (8 * msg.length))

/-- Split into 64-byte chunks (budgeted recursion). -/
def sha1Chunks : Nat → List Nat → List (List Nat)
  | 0, _ => []
  | _ + 1, [] => []
  | f + 1, l => l.take 64 :: sha1Chunks f (l.drop 64)

/-- The 20-byte SHA-1 digest of a byte list. -/
def sha1 (msg : List Nat) : List Nat :=
  let padded := sha1Pad msg
  match (sha1Chunks padded.length padded).foldl sha1Chunk
      (1732584193, 4023233417, 2562383102, 271733878, 3285377520) with
  | (h0, h1, h2, h3, h4) =>
      beBytes 4 h0 ++ (beBytes 4 h1 ++ (beBytes 4 h2 ++ (beBytes 4 h3 ++ beBytes 4 h4)))

/-! ## Metadata model (`MetadataInfo.from_rawdata` in `src/btorrent/metadata.py`) -/

/-- Python `dict.get` on a decoded bencode dictionary (`None` when absent). -/
def dGet : PyDict → List Nat → Option PyVal
  | .nil, _ => Option.none
  | .cons k' v tl, k => if k' = k then some v else dGet tl k

/-- Exceptions the metadata constructor can raise. -/
inductive MdErr : Type where
  | typeErr
  | attrErr
  | valueErr
  | encodeErr
  deriving DecidableEq

/-- Python `int(x)` on a decoded value (or `None` for a missing key):
integers pass through, byte strings are parsed as decimal text,
anything else raises `TypeError`. -/
def pyIntOf : Option PyVal → Except MdErr Int
  | some (.int i) => .ok i
  | some (.str s) =>
      match pyIntParse s with
      | .ok i => .ok i
      | .error _ => .error .valueErr
  | _ => .error .typeErr

/-- `MetadataFile(path, length, md5sum)`.  `path` keeps the raw byte
segments (text decoding via `encoding` is not modelled). -/
structure MetadataFile : Type where
  path : List (List Nat)
  length : Int
  md5sum : Option PyVal
  deriving DecidableEq

/-- `MetadataInfo`: `total_size` keeps the raw decoded value because in
single-file mode the code stores `length` before the `int()` conversion. -/
structure MetadataInfo : Type where
  pieces : List Nat
  piece_length : Int
  private_flag : Int
  name : List Nat
  files : List MetadataFile
  total_size : PyVal
  hashes : List (List Nat)
  pieces_amount : Nat
  info_hash : List Nat
  deriving DecidableEq

/-- Byte-string keys used by `from_rawdata` (all lowercase ASCII). -/
def piecesKey : List Nat := [112, 105, 101, 99, 101, 115]

def pieceLengthKey : List Nat := [112, 105, 101, 99, 101, 32, 108, 101, 110, 103, 116, 104]

def privateKey : List Nat := [112, 114, 105, 118, 97, 116, 101]

def nameKey : List Nat := [110, 97, 109, 101]

def lengthKey : List Nat := [108, 101, 110, 103, 116, 104]

def md5sumKey : List Nat := [109, 100, 53, 115, 117, 109]

def filesKey : List Nat := [102, 105, 108, 101, 115]

def pathKey : List Nat := [112, 97, 116, 104]

def infoKey : List Nat := [105, 110, 102, 111]

/-- Split `pieces` into 20-byte groups (`pieces[i:i+20]`, budgeted). -/
def chunks20 : Nat → List Nat → List (List Nat)
  | 0, _ => []
  | _ + 1, [] => []
  | f + 1, l => l.take 20 :: chunks20 f (l.drop 20)

/-- A multi-file `path` entry: a list whose segments must all be byte
strings (each is `.decode`d; a non-bytes segment raises). -/
def pyListBytes : PyList → Except MdErr (List (List Nat))
  | .nil => .ok []
  | .cons (.str s) tl => do
      let r ← pyListBytes tl
      .ok (s :: r)
  | .cons _ _ => .error .attrErr

/-- The `for f_info in info.get(b'files', ())` loop body: each `f_info`
must be a dict; collects the `MetadataFile`s and accumulates `total_size`. -/
def mdFilesGo : PyList → Except MdErr (List MetadataFile × Int)
  | .nil => .ok ([], 0)
  | .cons (.dict fd) tl => do
      let segs ← (match dGet fd pathKey with
        | some (.list segs) => pyListBytes segs
        | _ => .error .typeErr)
      let sz ← pyIntOf (dGet fd lengthKey)
      let (rest, total) ← mdFilesGo tl
      .ok (⟨segs, sz, dGet fd md5sumKey⟩ :: rest, sz + total)
  | .cons _ _ => .error .attrErr

/-- Iterate `info.get(b'files', ())`: absent means the empty tuple; a list
iterates its entries; iterating bytes or a dict yields non-dict items
(which fail in the loop body unless empty); an integer is not iterable. -/
def mdFiles : Option PyVal → Except MdErr (List MetadataFile × Int)
  | Option.none => .ok ([], 0)
  | some (.list l) => mdFilesGo l
  | some (.str []) => .ok ([], 0)
  | some (.str (_ :: _)) => .error .attrErr
  | some (.dict .nil) => .ok ([], 0)
  | some (.dict (.cons _ _ _)) => .error .attrErr
  | some _ => .error .typeErr

/-- `info.get(b'name').decode(encoding)`: requires a byte string
(`AttributeError` on `None` or another type; the text decoding itself is
not modelled, so the raw bytes are kept). -/
def getName : Option PyVal → Except MdErr (List Nat)
  | some (.str nm) => .ok nm
  | _ => .error .attrErr

/-- The uses of `pieces` in the constructor (`len`, slicing) require a
byte string (`TypeError` otherwise, also when the key was absent). -/
def getPieces : Option PyVal → Except MdErr (List Nat)
  | some (.str p) => .ok p
  | _ => .error .typeErr

/-- `bencode.encode(info)` as used at metadata.py line 62; an encoder
`TypeError` propagates. -/
def encodeInfo (info : PyVal) : Except MdErr (List Nat) :=
  match pyEncode info with
  | .ok bs => .ok bs
  | .error _ => .error .encodeErr

/-- `MetadataInfo.from_rawdata`, followed by the `__init__` bookkeeping
(`hashes`, `pieces_amount`).  Field accesses and conversions follow the
source order; `info.get` requires the decoded `info` to be a dict. -/
def from_rawdata : PyVal → Except MdErr MetadataInfo
  | .dict d => do
      let piecesRaw := dGet d piecesKey
      let piece_length ← pyIntOf (dGet d pieceLengthKey)
      let private_flag ← pyIntOf (some ((dGet d privateKey).getD (.int 0)))
      let name ← getName (dGet d nameKey)
      let encodedInfo ← encodeInfo (.dict d)
      let info_hash := sha1 encodedInfo
      let pieces ← getPieces piecesRaw
      match dGet d lengthKey with
      | some lengthV => do
          -- single file mode: one synthetic file named `name`, `md5sum` read
          -- from the info dict itself; then `name = Path()` and
          -- `total_size = length` (the raw decoded value)
          let len ← pyIntOf (some lengthV)
          Except.ok ⟨pieces, piece_length, private_flag, [],
            [⟨[name], len, dGet d md5sumKey⟩], lengthV,
            chunks20 pieces.length pieces, (chunks20 pieces.length pieces).length, info_hash⟩
      | Option.none => do
          -- multiple file mode
          let (files, total_size) ← mdFiles (dGet d filesKey)
          Except.ok ⟨pieces, piece_length, private_flag, name, files, .int total_size,
            chunks20 pieces.length pieces, (chunks20 pieces.length pieces).length, info_hash⟩
  | _ => .error .attrErr

/-- `Except.isOk` without depending on library naming. -/
def isOkE {ε α : Type} : Except ε α → Bool
  | .ok _ => true
  | .error _ => false

/-- The raw bytes of a small single-file metainfo dictionary. -/
def c1RawC : List Nat := [100, 52, 58, 105, 110, 102, 111, 100, 54, 58, 108, 101, 110, 103, 116, 104, 105, 49, 101, 52, 58, 110, 97, 109, 101, 49, 58, 97, 49, 50, 58, 112, 105, 101, 99, 101, 32, 108, 101, 110, 103, 116, 104, 105, 49, 101, 54, 58, 112, 105, 101, 99, 101, 115, 50, 48, 58, 0, 1, 2, 3, 4, 5, 6, 7, 8, 9, 10, 11, 12, 13, 14, 15, 16, 17, 18, 19, 101, 101]

/-- The decoded `info` sub-tree of `c1RawC`. -/
def c1InfoC : PyVal :=
  .dict (.cons [108, 101, 110, 103, 116, 104] (.int 1)
    (.cons [110, 97, 109, 101] (.str [97])
      (.cons [112, 105, 101, 99, 101, 32, 108, 101, 110, 103, 116, 104] (.int 1)
        (.cons [112, 105, 101, 99, 101, 115] (.str [0, 1, 2, 3, 4, 5, 6, 7, 8, 9, 10, 11, 12, 13, 14, 15, 16, 17, 18, 19]) .nil))))

/-- The decoded root dictionary of `c1RawC`. -/
def c1RootC : PyDict := .cons [105, 110, 102, 111] c1InfoC .nil

/-! ## Peer wire messages (`src/btorrent/transport/peer.py`) -/

/-- The ASCII literal `BitTorrent protocol` (19 bytes). -/
def protocolName : List Nat :=
  [66, 105, 116, 84, 111, 114, 114, 101, 110, 116, 32, 112, 114, 111, 116, 111, 99, 111, 108]

/-- Exceptions raised while parsing peer messages: `WrongMessageError`,
`struct.error`, and the `IndexError` that `Handshake._from_bytes` would
raise on an empty buffer (unreachable through `Message.from_bytes`, which
rejects empty input first). -/
inductive PErr : Type where
  | wrongMessage
  | structError
  | indexErr
  deriving DecidableEq

/-- Parsed peer-wire messages (one constructor per `Message` subclass). -/
inductive Msg : Type where
  | keepAlive
  | choke
  | unChoke
  | interested
  | notInterested
  | have (piece_index : Nat)
  | bitfield (bf : List Nat)
  | request (index begin_ length : Nat)
  | piece (index begin_ : Nat) (block : List Nat)
  | cancel (index begin_ length : Nat)
  | port (listen_port : Nat)
  | handshake (reserved : Nat) (info_hash peer_id : List Nat)
  deriving DecidableEq

/-- `Handshake._from_bytes`: look the first byte up in `PROTOCOL_VERS`
(which only maps 19); on a match, unpack `!Q20s20s` at offset 20 (needing
at least 68 bytes).  The 19 `pstr` bytes themselves are never compared to
the protocol literal. -/
def hsFromBytes (buf : List Nat) : Except PErr Msg :=
  match buf with
  | [] => .error .indexErr
  | b :: _ =>
      if b = 19 then
        if 68 ≤ buf.length then
          .ok (.handshake (beVal ((buf.drop 20).take 8))
            ((buf.drop 28).take 20) ((buf.drop 48).take 20))
        else .error .structError
      else .error .wrongMessage

/-- `Message.from_bytes`: reject empty input; fewer than 5 bytes means the
`!IB` unpack fails and the generic `_from_bytes` builds a `KeepAlive`
(needing 4 bytes for the length field); otherwise dispatch on the byte at
offset 4, falling back to `Handshake` for unknown ids.  Each subclass
unpacks its payload at offset 5 from the declared `length`. -/
def msgFromBytes (buf : List Nat) : Except PErr Msg :=
  if buf = [] then .error .wrongMessage
  else if buf.length < 5 then
    if 4 ≤ buf.length then .ok .keepAlive else .error .structError
  else
    let length := beVal (buf.take 4)
    let msg_id := buf.getD 4 0
    if msg_id = 0 then .ok .choke
    else if msg_id = 1 then .ok .unChoke
    else if msg_id = 2 then .ok .interested
    else if msg_id = 3 then .ok .notInterested
    else if msg_id = 4 then
      if 9 ≤ buf.length then .ok (.have (beVal ((buf.drop 5).take 4)))
      else .error .structError
    else if msg_id = 5 then
      if 1 ≤ length then
        if 5 + (length - 1) ≤ buf.length then .ok (.bitfield ((buf.drop 5).take (length - 1)))
        else .error .structError
      else .error .structError
    else if msg_id = 6 then
      if 17 ≤ buf.length then
        .ok (.request (beVal ((buf.drop 5).take 4)) (beVal ((buf.drop 9).take 4))
          (beVal ((buf.drop 13).take 4)))
      else .error .structError
    else if msg_id = 7 then
      if 9 ≤ length then
        if 13 + (length - 9) ≤ buf.length then
          .ok (.piece (beVal ((buf.drop 5).take 4)) (beVal ((buf.drop 9).take 4))
            ((buf.drop 13).take (length - 9)))
        else .error .structError
      else .error .structError
    else if msg_id = 8 then
      if 17 ≤ buf.length then
        .ok (.cancel (beVal ((buf.drop 5).take 4)) (beVal ((buf.drop 9).take 4))
          (beVal ((buf.drop 13).take 4)))
      else .error .structError
    else if msg_id = 9 then
      if 7 ≤ buf.length then .ok (.port (beVal ((buf.drop 5).take 2)))
      else .error .structError
    else hsFromBytes buf

/-- `Message.from_buf` on a positioned read buffer: read 4 bytes as the
big-endian length prefix (advancing the position), return `None` — without
rewinding those 4 bytes — when `buf_size < 4 + length`, otherwise seek
back 4 and parse the whole frame with `from_bytes`.  Returns the parse
result and the new stream position. -/
def msgFromBuf (buf : List Nat) (pos buf_size : Nat) : Except PErr (Option Msg) × Nat :=
  let four := (buf.drop pos).take 4
  let pos1 := min (pos + 4) buf.length
  let total := 4 + beVal four
  if buf_size < total then (.ok Option.none, pos1)
  else
    let pos2 := pos1 - 4
    let frame := (buf.drop pos2).take total
    (match msgFromBytes frame with
      | .ok m => .ok (some m)
      | .error e => .error e,
      min (pos2 + total) buf.length)

/-- Python `bool` used as an `int` (`False` is 0, `True` is 1). -/
def boolToNat (b : Bool) : Nat := if b then 1 else 0

/-- The `while est_sz >= 4 and not self.destroyed` loop of
`Peer.get_message`, as a function of the buffer contents and a stream
position.  Crucially the call site passes `self.handshaked` — a `bool` —
as `from_buf`'s `buf_size`.  A `None` result breaks the loop; a message is
yielded and the loop continues; on `struct.error` the stream is rewound to
the iteration's start (`seek(-est_sz, SEEK_END)`) and the loop breaks; on
`WrongMessageError` the loop continues past the consumed bytes.  (The
`HandshakeError` handler in the source is unreachable: no `_from_bytes`
raises it.)  Returns the yielded messages and the final position. -/
def getMessageLoop (buf : List Nat) (handshaked destroyed : Bool) :
    Nat → Nat → List Msg × Nat
  | 0, pos => ([], pos)
  | f + 1, pos =>
      let est := buf.length - pos
      if 4 ≤ est ∧ destroyed = false then
        match msgFromBuf buf pos (boolToNat handshaked) with
        | (.ok Option.none, pos') => ([], pos')
        | (.ok (some m), pos') =>
            let r := getMessageLoop buf handshaked destroyed f pos'
            (m :: r.1, r.2)
        | (.error .structError, _) => ([], buf.length - est)
        | (.error _, pos') => getMessageLoop buf handshaked destroyed f pos'
      else ([], pos)

/-- One call of `Peer.get_message` after `_recv` has filled the read
buffer: run the loop from position 0, then replace the buffer by what
remains from the final position (`BytesIO(self.read_buffer.read())`).
Returns the yielded messages and the new buffer contents. -/
def getMessage (buf : List Nat) (handshaked destroyed : Bool) : List Msg × List Nat :=
  let r := getMessageLoop buf handshaked destroyed (buf.length + 1) 0
  (r.1, buf.drop r.2)

/-! ## Tracker responses (`Response.build` and `UDPConnection._send_request`
in `src/btorrent/transport/tracker.py`) -/

def failureReasonKey : List Nat := [102, 97, 105, 108, 117, 114, 101, 32, 114, 101, 97, 115, 111, 110]

def minIntervalKey : List Nat := [109, 105, 110, 32, 105, 110, 116, 101, 114, 118, 97, 108]

def intervalKey : List Nat := [105, 110, 116, 101, 114, 118, 97, 108]

def incompleteKey : List Nat := [105, 110, 99, 111, 109, 112, 108, 101, 116, 101]

def completeKey : List Nat := [99, 111, 109, 112, 108, 101, 116, 101]

def trackerIdKey : List Nat := [116, 114, 97, 99, 107, 101, 114, 32, 105, 100]

def peersKey : List Nat := [112, 101, 101, 114, 115]

def ipKey : List Nat := [105, 112]

def portKey : List Nat := [112, 111, 114, 116]

def peerIdKey : List Nat := [112, 101, 101, 114, 32, 105, 100]

def downloadedKey : List Nat := [100, 111, 119, 110, 108, 111, 97, 100, 101, 100]

/-- Python truthiness of a decoded bencode value. -/
def pyTruthy : PyVal → Bool
  | .int i => i != 0
  | .str s => s != []
  | .list .nil => false
  | .list (.cons _ _) => true
  | .dict .nil => false
  | .dict (.cons _ _ _) => true
  | .none => false

/-- Exceptions `Response.build` and the bencode response parsers can
raise (beyond the caught decode failures): `struct.error` from
`iter_unpack` remainders, `AttributeError`/`TypeError`/`KeyError` from
dictionary access on wrong shapes, `ValueError` from `_TPReqType` on an
unknown action.  `decodeFuel` marks the decoder's budget artifact. -/
inductive BErr : Type where
  | structError
  | attrErr
  | typeErr
  | keyErr
  | valueErr
  | decodeFuel
  deriving DecidableEq

/-- A parsed announce response: the bencode path stores whatever decoded
values the reply carried, so the fields keep `PyVal`; the binary path
stores integers.  A peer entry is `(ip, port, peer_id?)`. -/
structure AnnounceR : Type where
  interval : PyVal
  leechers : PyVal
  seeders : PyVal
  tracker_id : PyVal
  peers : List (PyVal × PyVal × Option PyVal)
  deriving DecidableEq

/-- A scrape-table entry (`ScrapeResponse.FILE_NT`). -/
structure ScrapeFile : Type where
  seeders : PyVal
  completed : PyVal
  leechers : PyVal
  name : PyVal
  info_hash : List Nat
  deriving DecidableEq

/-- A parsed tracker response (`ConnectResponse` / `AnnounceResponse` /
`ScrapeResponse` / `ErrorResponse`). -/
inductive TrkResp : Type where
  | connectR (connection_id : Nat)
  | announceR (r : AnnounceR)
  | scrapeR (files : List ScrapeFile)
  | errorR (msg : List Nat)
  deriving DecidableEq

/-- The class-level `ACTION` of each response kind. -/
def respAction : TrkResp → Nat
  | .connectR _ => 0
  | .announceR _ => 1
  | .scrapeR _ => 2
  | .errorR _ => 3

/-- `isinstance(resp, ErrorResponse)`. -/
def isErrorR : TrkResp → Bool
  | .errorR _ => true
  | _ => false

/-- 6-byte compact peer groups: 4-byte IPv4 + 2-byte port, big endian
(`struct.iter_unpack('!IH', ...)`; the caller has checked divisibility). -/
def peers6 : Nat → List Nat → List (PyVal × PyVal × Option PyVal)
  | 0, _ => []
  | f + 1, l =>
      if l = [] then []
      else (.int (beVal (l.take 4)), .int (beVal ((l.drop 4).take 2)), Option.none) ::
        peers6 f (l.drop 6)

/-- 12-byte scrape triples `seeders, completed, leechers`. -/
def scrape12 : Nat → List Nat → List ScrapeFile
  | 0, _ => []
  | f + 1, l =>
      if l = [] then []
      else ⟨.int (beVal (l.take 4)), .int (beVal ((l.drop 4).take 4)),
        .int (beVal ((l.drop 8).take 4)), .str [], []⟩ :: scrape12 f (l.drop 12)

/-- `bytes.rstrip(b'\0')`. -/
def rstripZeros (l : List Nat) : List Nat := (l.reverse.dropWhile (fun b => b == 0)).reverse

/-- `ConnectResponse.from_buf`: needs exactly 8 more bytes. -/
def connFromBuf (rest : List Nat) : Option TrkResp :=
  if 8 ≤ rest.length then some (.connectR (beVal (rest.take 8))) else Option.none

/-- `AnnounceResponse.from_buf`: `interval, leechers, seeders` as `!III`,
then compact peers; `iter_unpack` raises `struct.error` unless the
remainder is a multiple of 6. -/
def annFromBuf (rest : List Nat) : Except BErr (Option TrkResp) :=
  if 12 ≤ rest.length then
    if (rest.length - 12) % 6 = 0 then
      .ok (some (.announceR ⟨.int (beVal (rest.take 4)), .int (beVal ((rest.drop 4).take 4)),
        .int (beVal ((rest.drop 8).take 4)), .str [],
        peers6 (rest.length - 12) (rest.drop 12)⟩))
    else .error .structError
  else .ok Option.none

/-- `ScrapeResponse.from_buf`: 12-byte triples over the rest. -/
def scrFromBuf (rest : List Nat) : Except BErr (Option TrkResp) :=
  if rest.length % 12 = 0 then .ok (some (.scrapeR (scrape12 rest.length rest)))
  else .error .structError

/-- `ErrorResponse.from_buf`: the rest, trailing NULs stripped; `None` if
empty. -/
def errFromBuf (rest : List Nat) : Option TrkResp :=
  if rest = [] then Option.none else some (.errorR (rstripZeros rest))

/-- Dictionary-model peers: each entry must be a dict with `ip` and
`port` (`KeyError` otherwise), optional `peer id`. -/
def dictPeers : PyList → Except BErr (List (PyVal × PyVal × Option PyVal))
  | .nil => .ok []
  | .cons (.dict pd) tl => do
      let ip ← (match dGet pd ipKey with
        | some v => Except.ok v
        | Option.none => Except.error BErr.keyErr)
      let port ← (match dGet pd portKey with
        | some v => Except.ok v
        | Option.none => Except.error BErr.keyErr)
      let rest ← dictPeers tl
      .ok ((ip, port, dGet pd peerIdKey) :: rest)
  | .cons _ _ => .error .typeErr

/-- `AnnounceResponse.from_bencode`: `interval` is `min interval` when
truthy, else the mandatory `interval` (`KeyError` when absent);
`incomplete`/`complete`/`tracker id` default to 0 / 0 / `b""`; `peers` is
compact bytes (multiple of 6 or `struct.error`), a dictionary-model list,
or — for any other shape — left empty. -/
def annFromBencode (d : PyDict) : Except BErr (Option TrkResp) := do
  let interval ← (match dGet d minIntervalKey with
    | some v =>
        if pyTruthy v then Except.ok v
        else match dGet d intervalKey with
          | some w => Except.ok w
          | Option.none => Except.error BErr.keyErr
    | Option.none => match dGet d intervalKey with
        | some w => Except.ok w
        | Option.none => Except.error BErr.keyErr)
  let peers ← (match dGet d peersKey with
    | some (.str pb) =>
        if pb.length % 6 = 0 then Except.ok (peers6 pb.length pb)
        else Except.error BErr.structError
    | some (.list pl) => dictPeers pl
    | _ => Except.ok [])
  .ok (some (.announceR ⟨interval, (dGet d incompleteKey).getD (.int 0),
    (dGet d completeKey).getD (.int 0), (dGet d trackerIdKey).getD (.str []), peers⟩))

/-- One entry of `ScrapeResponse.from_bencode`: the value must be a dict
with mandatory `complete`, `downloaded`, `incomplete`. -/
def scrBencodeGo : PyDict → Except BErr (List ScrapeFile)
  | .nil => .ok []
  | .cons ih fv tl => do
      match fv with
      | .dict fd => do
          let c ← (match dGet fd completeKey with
            | some v => Except.ok v
            | Option.none => Except.error BErr.keyErr)
          let dl ← (match dGet fd downloadedKey with
            | some v => Except.ok v
            | Option.none => Except.error BErr.keyErr)
          let ic ← (match dGet fd incompleteKey with
            | some v => Except.ok v
            | Option.none => Except.error BErr.keyErr)
          let rest ← scrBencodeGo tl
          .ok (⟨c, dl, ic, (dGet fd nameKey).getD (.str []), ih⟩ :: rest)
      | _ => .error .typeErr

/-- `ScrapeResponse.from_bencode`: `data[b'files']` must be a dict. -/
def scrFromBencode (d : PyDict) : Except BErr (Option TrkResp) :=
  match dGet d filesKey with
  | some (.dict fd) => do
      let files ← scrBencodeGo fd
      .ok (some (.scrapeR files))
  | some _ => .error .attrErr
  | Option.none => .error .keyErr

/-- The dispatch after the failure check: a present `files` key selects
scrape, otherwise announce. -/
def bencodeDispatch (d : PyDict) : Except BErr (Option TrkResp) :=
  match dGet d filesKey with
  | some _ => scrFromBencode d
  | Option.none => annFromBencode d

/-- `Response.build`: first try to bencode-decode the datagram; on
`ValueError`/`TypeError`/`EOFError` fall to the binary branch, which
requires at least 8 bytes and a `transaction_id` equal to the one sent —
otherwise `None`; a matching id dispatches on `action` (an unknown action
raises `ValueError` from `_TPReqType`).  A datagram that decodes as
bencode never reaches the transaction-id check: a `failure reason` dict
becomes an `ErrorResponse`, a `files` dict a scrape, anything else an
announce (a non-dict raises `AttributeError` at `resp.get`). -/
def buildResponse (resp : List Nat) (transaction_id : Nat) : Except BErr (Option TrkResp) :=
  match decode_from_buffer resp with
  | .error .fuel => .error .decodeFuel
  | .error _ =>
      if 8 ≤ resp.length then
        let action := beVal (resp.take 4)
        let t_id := beVal ((resp.drop 4).take 4)
        if t_id = transaction_id then
          if action = 0 then .ok (connFromBuf (resp.drop 8))
          else if action = 1 then annFromBuf (resp.drop 8)
          else if action = 2 then scrFromBuf (resp.drop 8)
          else if action = 3 then .ok (errFromBuf (resp.drop 8))
          else .error .valueErr
        else .ok Option.none
      else .ok Option.none
  | .ok v =>
      match v with
      | .dict d =>
          (match dGet d failureReasonKey with
            | some fv =>
                if pyTruthy fv then
                  match fv with
                  | .str s => .ok (some (.errorR s))
                  | _ => .error .attrErr
                else bencodeDispatch d
            | Option.none => bencodeDispatch d)
      | _ => .error .attrErr

/-- Failures of the whole `_send_request` exchange: 9 exhausted retries
raise `ConnectionError(EHOSTUNREACH)`; an exception from `build`
propagates. -/
inductive SendErr : Type where
  | hostUnreachable
  | raised (e : BErr)
  deriving DecidableEq

/-- The `if (not resp or (resp.ACTION != req.ACTION and not
isinstance(resp, ErrorResponse))): continue; return resp` step of
`UDPConnection._send_request`, applied to `build`'s outcome; `retry` is
what continuing to the next attempt yields.  An exception from `build`
propagates. -/
def sendHandle (reqAction : Nat) (retry : Except SendErr TrkResp) :
    Except BErr (Option TrkResp) → Except SendErr TrkResp
  | .error e => .error (.raised e)
  | .ok Option.none => retry
  | .ok (some r) =>
      if respAction r ≠ reqAction ∧ isErrorR r = false then retry else .ok r

/-- One attempt of `_send_request`: a socket timeout (no datagram)
continues to the next attempt, a received datagram goes through
`Response.build` and `sendHandle`. -/
def sendRecvHandle (T reqAction : Nat) (retry : Except SendErr TrkResp) :
    Option (List Nat) → Except SendErr TrkResp
  | Option.none => retry
  | some dg => sendHandle reqAction retry (buildResponse dg T)

/-- The retry loop of `UDPConnection._send_request`, with the network
abstracted as `recv : attempt index → datagram or timeout`.  After 9
attempts without a usable reply, `ConnectionError(EHOSTUNREACH)`. -/
def sendLoopAux (T reqAction : Nat) (recv : Nat → Option (List Nat)) :
    Nat → Except SendErr TrkResp
  | 0 => .error .hostUnreachable
  | left + 1 =>
      sendRecvHandle T reqAction (sendLoopAux T reqAction recv left) (recv (9 - (left + 1)))

/-- `UDPConnection._send_request` over its 9-attempt schedule. -/
def udpSendRequest (T reqAction : Nat) (recv : Nat → Option (List Nat)) :
    Except SendErr TrkResp :=
  sendLoopAux T reqAction recv 9

/-! ### Tracker tiers: `Torrent._send_request` and `Torrent.announce`
(src/btorrent/torrent.py, lines 58-97) -/

/-- Outcome of calling a tracker method on one tracker: `raised` models a
`ConnectionError`/`OSError` caught by `_send_request`'s `except` clause;
`result r` models a normal return, with `Option.none` standing for a falsy
result. -/
inductive TrkOutcome (β : Type) : Type where
  | raised : TrkOutcome β
  | result : Option β → TrkOutcome β
  deriving DecidableEq

/-- Whether the call returned a truthy result (the `if result:` test in
`Torrent._send_request`). -/
def isSucc {β : Type} : TrkOutcome β → Bool
  | .result (some _) => true
  | _ => false

/-- The inner `for idx, tracker in enumerate(lvl)` loop of
`Torrent._send_request`: the first tracker in the tier whose call returns a
truthy result, with its index and the result; `Option.none` if none does. -/
def findSucc {α β : Type} (meth : α → TrkOutcome β) : List α → Option (α × Nat × β)
  | [] => Option.none
  | t :: ts =>
      match meth t with
      | .result (some r) => some (t, 0, r)
      | _ => (findSucc meth ts).map fun x => (x.1, x.2.1 + 1, x.2.2)

/-- `Torrent._send_request`: walk the tiers in order; on the first truthy
result, `lvl.pop(idx); lvl.insert(0, tracker)` promotes that tracker to the
front of its own tier and the result is returned.  Returns the updated
`announce_list` together with the returned value (`Option.none` models the
implicit `return None` when no tracker yields a truthy result). -/
def torrentSendReq {α β : Type} (meth : α → TrkOutcome β) :
    List (List α) → List (List α) × Option β
  | [] => ([], Option.none)
  | lvl :: rest =>
      match findSucc meth lvl with
      | some (t, i, r) => ((t :: lvl.eraseIdx i) :: rest, some r)
      | Option.none =>
          let x := torrentSendReq meth rest
          (lvl :: x.1, x.2)

/-- The announce-relevant fields of a `Torrent` (src/btorrent/torrent.py,
`__init__` lines 18-30), with tracker type `α`; a peer is kept as its
raw `(ip, port, peer_id)` triple from the announce response. -/
structure TorrentSt (α : Type) : Type where
  announce_list : List (List α)
  peers : List (PyVal × PyVal × Option PyVal)
  seeders : PyVal
  leechers : PyVal
  interval : PyVal
  last_announce_time : Int
  deriving DecidableEq

/-- Two peers are the same set element iff their `(ip, port)` pairs are
equal (`Peer.__hash__`/`__eq__`, src/btorrent/peer.py lines 102-106). -/
def peerKeyEq (p q : PyVal × PyVal × Option PyVal) : Bool :=
  decide (p.1 = q.1) && decide (p.2.1 = q.2.1)

/-- `self.peers.update(...)` in `Torrent.announce`: each peer from the
response is added unless a peer with the same `(ip, port)` is present. -/
def peersUpdate (cur : List (PyVal × PyVal × Option PyVal)) :
    List (PyVal × PyVal × Option PyVal) → List (PyVal × PyVal × Option PyVal)
  | [] => cur
  | p :: tl => peersUpdate (if cur.any (peerKeyEq p) then cur else cur ++ [p]) tl

/-- `Torrent.announce` (src/btorrent/torrent.py, lines 74-97): run
`_send_request` over the tiers; if the response is `None` nothing else
happens, otherwise update `last_announce_time`, `interval`, `seeders`,
`leechers` and the peer set. -/
def torrentAnnounce {α : Type} (meth : α → TrkOutcome AnnounceR)
    (st : TorrentSt α) (now : Int) : TorrentSt α :=
  let x := torrentSendReq meth st.announce_list
  match x.2 with
  | Option.none => { st with announce_list := x.1 }
  | some r =>
      { st with
          announce_list := x.1
          last_announce_time := now
          interval := r.interval
          seeders := r.seeders
          leechers := r.leechers
          peers := peersUpdate st.peers r.peers }

/-- Concrete tracker method for the C7 witness: tracker 1 answers with 42,
every other tracker raises a connection error. -/
def c7Meth : Nat → TrkOutcome Nat :=
  fun t => if t = 1 then .result (some 42) else .raised

/-- Concrete tracker method for the C10 witness: every call raises. -/
def c10Meth : Nat → TrkOutcome AnnounceR :=
  fun _ => .raised

/-- Concrete torrent state for the C10 witness. -/
def c10St : TorrentSt Nat :=
  ⟨[[0, 1]], [], .int 0, .int 0, .int 0, 0⟩

/-! ### Peer session state: `Peer.connect`/`send_message`/`do_unchoke`
(src/btorrent/peer.py) and the `Interested` branch of
`TorrentManager._handle_message` (src/btorrent/torrent_manager.py) -/

/-- The connection and choke state of a `Peer` (src/btorrent/peer.py):
`sockOpen` models `self.sock is not None`, the other fields mirror the
`state` dict entries used by the modelled methods. -/
structure PeerSt : Type where
  sockOpen : Bool
  handshaked : Bool
  destroyed : Bool
  am_choking : Bool
  peer_interested : Bool
  deriving DecidableEq

/-- `Peer.connect` (src/btorrent/peer.py, lines 114-128): a no-op when
already handshaked or destroyed; otherwise the TCP connection either
succeeds (`connectOk = true`, socket stored) or raises, in which case the
peer is marked destroyed. -/
def peerConnect (st : PeerSt) (connectOk : Bool) : PeerSt :=
  if st.handshaked || st.destroyed then st
  else if connectOk then { st with sockOpen := true }
  else { st with destroyed := true }

/-- `Peer.send_message` (src/btorrent/peer.py, lines 138-155): connect if
there is no socket; drop the message unless the peer is not destroyed and
is handshaked (or `force` is set); then send, a send failure
(`sendOk = false`) marking the peer destroyed.  Returns the new state and
the list of messages actually written to the socket. -/
def send_message (st : PeerSt) (msg : Msg) (force connectOk sendOk : Bool) :
    PeerSt × List Msg :=
  let st1 := if st.sockOpen then st else peerConnect st connectOk
  if st1.destroyed || !(force || st1.handshaked) then (st1, [])
  else if sendOk then (st1, [msg])
  else ({ st1 with destroyed := true }, [])

/-- `Peer.do_unchoke` (src/btorrent/peer.py, lines 171-173): send `UnChoke`
if `am_choking` is set; the method contains no assignment to
`am_choking`. -/
def do_unchoke (st : PeerSt) (connectOk sendOk : Bool) : PeerSt × List Msg :=
  if st.am_choking then send_message st .unChoke false connectOk sendOk
  else (st, [])

/-- The `Interested` branch of `TorrentManager._handle_message`
(src/btorrent/torrent_manager.py, lines 54-56):
`peer.peer_interested = True; peer.do_unchoke()`. -/
def handleInterested (st : PeerSt) (connectOk sendOk : Bool) : PeerSt × List Msg :=
  do_unchoke { st with peer_interested := true } connectOk sendOk

/-! ## Theorems -/

theorem pdInsert_pySize (k : List Nat) (v : PyVal) :
    (d : PyDict) → pySizeD (pdInsert k v d) = pySizeD (PyDict.cons k v d)
  | .nil => by simp [pdInsert]
  | .cons k' v' tl => by
      have ih := pdInsert_pySize k v tl
      by_cases h : bytesLe k k' = true
      · simp [pdInsert, h]
      · simp only [pdInsert, h, if_false, Bool.false_eq_true]
        simp only [pySizeD] at *
        omega
termination_by d => sizeOf d

theorem pdSort_pySize : (d : PyDict) → pySizeD (pdSort d) = pySizeD d
  | .nil => rfl
  | .cons k v tl => by
      have ih := pdSort_pySize tl
      simp only [pdSort, pdInsert_pySize, pySizeD]
      omega
termination_by d => sizeOf d

/-! ## Order facts about the lexicographic byte comparison -/

theorem bytesLt_irrefl : (a : List Nat) → bytesLt a a = false
  | [] => rfl
  | x :: xs => by simp [bytesLt, bytesLt_irrefl xs]

theorem bytesLt_trans : (a b c : List Nat) → bytesLt a b = true → bytesLt b c = true →
    bytesLt a c = true
  | [], [], _, h, _ => by simp [bytesLt] at h
  | [], _ :: _, [], _, h => by simp [bytesLt] at h
  | [], _ :: _, _ :: _, _, _ => rfl
  | _ :: _, [], _, h, _ => by simp [bytesLt] at h
  | _ :: _, _ :: _, [], _, h => by simp [bytesLt] at h
  | x :: xs, y :: ys, z :: zs, h1, h2 => by
      simp only [bytesLt] at h1 h2 ⊢
      by_cases hxy : x < y
      · rw [if_pos hxy] at h1
        by_cases hyz : y < z
        · rw [if_pos (show x < z by omega)]
        · rw [if_neg hyz] at h2
          by_cases hzy : z < y
          · rw [if_pos hzy] at h2; exact absurd h2 (by simp)
          · rw [if_pos (show x < z by omega)]
      · rw [if_neg hxy] at h1
        by_cases hyx : y < x
        · rw [if_pos hyx] at h1; exact absurd h1 (by simp)
        · rw [if_neg hyx] at h1
          have hxy' : x = y := by omega
          subst hxy'
          by_cases hyz : x < z
          · rw [if_pos hyz]
          · rw [if_neg hyz] at h2 ⊢
            by_cases hzy : z < x
            · rw [if_pos hzy] at h2; exact absurd h2 (by simp)
            · rw [if_neg hzy] at h2 ⊢
              exact bytesLt_trans xs ys zs h1 h2

theorem bytesLt_tri : (a b : List Nat) →
    bytesLt a b = true ∨ bytesLt b a = true ∨ a = b
  | [], [] => .inr (.inr rfl)
  | [], _ :: _ => .inl rfl
  | _ :: _, [] => .inr (.inl rfl)
  | x :: xs, y :: ys => by
      rcases Nat.lt_trichotomy x y with h | h | h
      · left; simp [bytesLt, h]
      · subst h
        rcases bytesLt_tri xs ys with h | h | h
        · left; simp [bytesLt, h]
        · right; left; simp [bytesLt, h]
        · right; right; rw [h]
      · right; left; simp [bytesLt, h]

theorem bytesLt_le (a b : List Nat) (h : bytesLt a b = true) : bytesLe a b = true := by
  simp [bytesLe, h]

theorem bytesLe_total (a b : List Nat) (h : bytesLe a b = false) : bytesLe b a = true := by
  simp only [bytesLe, Bool.or_eq_false_iff, beq_eq_false_iff_ne] at h
  rcases bytesLt_tri a b with h' | h' | h'
  · rw [h.1] at h'; exact absurd h' (by simp)
  · simp [bytesLe, h']
  · exact absurd h' h.2

theorem bytesLt_ne (a b : List Nat) (h : bytesLt a b = true) : a ≠ b := by
  intro he
  subst he
  rw [bytesLt_irrefl] at h
  exact Bool.false_ne_true h

/-! ## Correctness of the decimal rendering -/

theorem natToDecAux_fuel : (n f f' : Nat) → (acc : List Nat) → n ≤ f → n ≤ f' →
    natToDecAux f n acc = natToDecAux f' n acc
  | 0, 0, 0, _, _, _ => rfl
  | 0, 0, _ + 1, _, _, _ => by simp [natToDecAux]
  | 0, _ + 1, 0, _, _, _ => by simp [natToDecAux]
  | 0, _ + 1, _ + 1, _, _, _ => by simp [natToDecAux]
  | n + 1, f, f', acc, hf, hf' => by
      match f, f', hf, hf' with
      | g + 1, g' + 1, hf, hf' =>
        simp only [natToDecAux, if_neg (Nat.succ_ne_zero n)]
        have hd : (n + 1) / 10 < n + 1 := Nat.div_lt_self (Nat.succ_pos n) (by omega)
        exact natToDecAux_fuel ((n + 1) / 10) g g' _ (by omega) (by omega)
termination_by n _ _ _ => n

theorem natToDecAux_shape : (n f : Nat) → (acc : List Nat) → n ≤ f →
    natToDecAux f n acc = natDigs n ++ acc
  | 0, 0, acc, _ => rfl
  | 0, _ + 1, acc, _ => by simp [natToDecAux, natDigs]
  | n + 1, f, acc, hf => by
      match f, hf with
      | g + 1, hf =>
        have hd : (n + 1) / 10 < n + 1 := Nat.div_lt_self (Nat.succ_pos n) (by omega)
        simp only [natToDecAux, if_neg (Nat.succ_ne_zero n), natDigs]
        rw [natToDecAux_shape ((n + 1) / 10) g _ (by omega),
          natToDecAux_shape ((n + 1) / 10) n _ (by omega)]
        simp
termination_by n _ _ => n

theorem natDigs_succ (n : Nat) (h : n ≠ 0) :
    natDigs n = natDigs (n / 10) ++ [48 + n % 10] := by
  match n, h with
  | n + 1, _ =>
    have hd : (n + 1) / 10 < n + 1 := Nat.div_lt_self (Nat.succ_pos n) (by omega)
    show natToDecAux (n + 1) (n + 1) [] = _
    simp only [natToDecAux, if_neg (Nat.succ_ne_zero n)]
    rw [natToDecAux_shape ((n + 1) / 10) n _ (by omega)]

theorem natDigs_digits : (n : Nat) → ∀ b ∈ natDigs n, 48 ≤ b ∧ b ≤ 57
  | 0 => by simp [natDigs, natToDecAux]
  | n + 1 => by
      have hd : (n + 1) / 10 < n + 1 := Nat.div_lt_self (Nat.succ_pos n) (by omega)
      rw [natDigs_succ (n + 1) (Nat.succ_ne_zero n)]
      intro b hb
      rcases List.mem_append.mp hb with hb | hb
      · exact natDigs_digits ((n + 1) / 10) b hb
      · have : b = 48 + (n + 1) % 10 := List.mem_singleton.mp hb
        have : (n + 1) % 10 < 10 := Nat.mod_lt _ (by omega)
        omega
termination_by n => n

theorem digitsVal_append (l1 l2 : List Nat) :
    digitsVal (l1 ++ l2) = (l1 ++ l2).foldl (fun a d => a * 10 + (d - 48)) 0 := rfl

theorem foldl_digits_from (a : Nat) : (l : List Nat) → (h : ∀ b ∈ l, 48 ≤ b) →
    List.foldl (fun a d => a * 10 + (d - 48)) a l =
      a * 10 ^ l.length + List.foldl (fun a d => a * 10 + (d - 48)) 0 l
  | [], _ => by simp
  | b :: l, h => by
      simp only [List.foldl_cons, List.length_cons]
      rw [foldl_digits_from (a * 10 + (b - 48)) l (fun x hx => h x (List.mem_cons_of_mem b hx)),
        foldl_digits_from (0 * 10 + (b - 48)) l (fun x hx => h x (List.mem_cons_of_mem b hx))]
      ring

theorem digitsVal_natDigs : (n : Nat) → digitsVal (natDigs n) = n
  | 0 => rfl
  | n + 1 => by
      have hd : (n + 1) / 10 < n + 1 := Nat.div_lt_self (Nat.succ_pos n) (by omega)
      have ih := digitsVal_natDigs ((n + 1) / 10)
      rw [natDigs_succ (n + 1) (Nat.succ_ne_zero n)]
      unfold digitsVal
      rw [List.foldl_append]
      simp only [List.foldl_cons, List.foldl_nil]
      unfold digitsVal at ih
      rw [ih]
      have h10 : (n + 1) % 10 < 10 := Nat.mod_lt _ (by omega)
      have := Nat.div_add_mod (n + 1) 10
      omega
termination_by n => n

theorem natToDec_digits (n : Nat) : ∀ b ∈ natToDec n, 48 ≤ b ∧ b ≤ 57 := by
  unfold natToDec
  by_cases h : n = 0
  · simp [h]
  · rw [if_neg h]
    exact natDigs_digits n

theorem digitsVal_natToDec (n : Nat) : digitsVal (natToDec n) = n := by
  unfold natToDec
  by_cases h : n = 0
  · simp [h, digitsVal]
  · rw [if_neg h]
    exact digitsVal_natDigs n

theorem intToDec_le57 (i : Int) : ∀ b ∈ intToDec i, b ≤ 57 := by
  unfold intToDec
  by_cases h : i < 0
  · rw [if_pos h]
    intro b hb
    rcases List.mem_cons.mp hb with hb | hb
    · omega
    · exact (natToDec_digits i.natAbs b hb).2
  · rw [if_neg h]
    intro b hb
    exact (natToDec_digits i.toNat b hb).2

theorem natToDec_ne_nil (n : Nat) : natToDec n ≠ [] := by
  unfold natToDec
  by_cases h : n = 0
  · simp [h]
  · rw [if_neg h]
    match n, h with
    | n + 1, _ =>
      show natDigs (n + 1) ≠ []
      rw [natDigs_succ (n + 1) (Nat.succ_ne_zero n)]
      simp

/-! ## Scanner and primitive decode round-trips -/

theorem readUntilE_append : (ds rest : List Nat) → (∀ b ∈ ds, b ≠ 101) →
    readUntilE (ds ++ 101 :: rest) = .ok (ds, rest)
  | [], rest, _ => by simp [readUntilE]
  | b :: ds, rest, h => by
      have hb : b ≠ 101 := h b (List.mem_cons_self b ds)
      simp only [List.cons_append, readUntilE, if_neg hb, List.append_eq]
      rw [readUntilE_append ds rest (fun x hx => h x (List.mem_cons_of_mem b hx))]
      rfl

theorem readDigits_append : (ds rest : List Nat) → (∀ b ∈ ds, 48 ≤ b ∧ b ≤ 57) →
    readDigits (ds ++ 58 :: rest) = .ok (ds, rest)
  | [], rest, _ => by simp [readDigits]
  | b :: ds, rest, h => by
      have hb := h b (List.mem_cons_self b ds)
      simp only [List.cons_append, readDigits, if_neg (show ¬b = 58 by omega),
        if_pos (show isDigit b = true by simp [isDigit]; omega), List.append_eq]
      rw [readDigits_append ds rest (fun x hx => h x (List.mem_cons_of_mem b hx))]
      rfl

theorem decodeBuffer_enc (s rest : List Nat) :
    decodeBuffer (encBuffer s ++ rest) = .ok (.str s, rest) := by
  unfold decodeBuffer encBuffer
  rw [show (natToDec s.length ++ 58 :: s) ++ rest = natToDec s.length ++ 58 :: (s ++ rest)
    by simp]
  rw [readDigits_append (natToDec s.length) (s ++ rest) (natToDec_digits s.length)]
  show Except.ok (PyVal.str ((s ++ rest).take (digitsVal (natToDec s.length))),
      (s ++ rest).drop (digitsVal (natToDec s.length))) = _
  rw [digitsVal_natToDec, List.take_left, List.drop_left]

theorem pyIntParse_digits (l : List Nat) (hne : l ≠ []) (hd : ∀ b ∈ l, 48 ≤ b ∧ b ≤ 57) :
    pyIntParse l = .ok (digitsVal l : Int) := by
  match l, hne with
  | b :: ds, _ =>
    have hb := hd b (List.mem_cons_self b ds)
    simp only [pyIntParse]
    rw [if_neg (show ¬b = 45 by omega), if_neg (show ¬b = 43 by omega),
      if_pos (by
        simp only [List.all_eq_true]
        intro x hx
        have := hd x hx
        simp [isDigit]
        omega)]

theorem pyIntParse_intToDec (i : Int) : pyIntParse (intToDec i) = .ok i := by
  unfold intToDec
  by_cases h : i < 0
  · rw [if_pos h]
    show pyIntParse (45 :: natToDec i.natAbs) = .ok i
    simp only [pyIntParse, if_true]
    rw [if_pos (by
      refine ⟨natToDec_ne_nil i.natAbs, ?_⟩
      simp only [List.all_eq_true]
      intro x hx
      have := natToDec_digits i.natAbs x hx
      simp [isDigit]
      omega)]
    rw [digitsVal_natToDec]
    congr 1
    omega
  · rw [if_neg h]
    rw [pyIntParse_digits (natToDec i.toNat) (natToDec_ne_nil i.toNat)
      (natToDec_digits i.toNat)]
    rw [digitsVal_natToDec]
    congr 1
    omega

theorem decodeInt_enc (i : Int) (rest : List Nat) :
    decodeInt (intToDec i ++ 101 :: rest) = .ok (.int i, rest) := by
  unfold decodeInt
  rw [readUntilE_append (intToDec i) rest
    (fun b hb => by have := intToDec_le57 i b hb; omega)]
  show (pyIntParse (intToDec i)).bind _ = _
  rw [pyIntParse_intToDec]
  rfl

theorem pyDecode_e (f : Nat) (s : List Nat) : pyDecode (f + 1) (101 :: s) = .ok (.none, s) := by
  simp [pyDecode]

theorem pyDecode_int (f : Nat) (i : Int) (rest : List Nat) :
    pyDecode (f + 1) ((105 :: (intToDec i ++ [101])) ++ rest) = .ok (.int i, rest) := by
  rw [show (105 :: (intToDec i ++ [101])) ++ rest = 105 :: (intToDec i ++ 101 :: rest) by simp]
  simp only [pyDecode, if_pos rfl]
  exact decodeInt_enc i rest

theorem pyDecode_digit (f b : Nat) (bs : List Nat) (h1 : 48 ≤ b) (h2 : b ≤ 57) :
    pyDecode (f + 1) (b :: bs) = decodeBuffer (b :: bs) := by
  simp only [pyDecode]
  rw [if_neg (by omega), if_neg (by omega), if_neg (by omega), if_neg (by omega),
    if_pos (by simp [isDigit]; omega)]

theorem pyDecode_buffer (f : Nat) (s rest : List Nat) :
    pyDecode (f + 1) (encBuffer s ++ rest) = .ok (.str s, rest) := by
  obtain ⟨b, bs, hc⟩ := List.exists_cons_of_ne_nil (natToDec_ne_nil s.length)
  have hb : 48 ≤ b ∧ b ≤ 57 := natToDec_digits s.length b (by rw [hc]; exact List.mem_cons_self b bs)
  have hshape : encBuffer s ++ rest = b :: (bs ++ 58 :: (s ++ rest)) := by
    unfold encBuffer
    rw [hc]
    simp
  rw [hshape, pyDecode_digit f b _ hb.1 hb.2, ← hshape]
  exact decodeBuffer_enc s rest

/-! ## Reduction helpers for the decoder loops -/

theorem ebind_ok {ε α β : Type} (a : α) (f : α → Except ε β) :
    ((Except.ok a : Except ε α) >>= f) = f a := rfl

theorem ebind_err {ε α β : Type} (e : ε) (f : α → Except ε β) :
    ((Except.error e : Except ε α) >>= f) = .error e := rfl

theorem pyDecodeList_end (h : Nat) (s r : List Nat) (hx : pyDecode h s = .ok (.none, r)) :
    pyDecodeList (h + 1) s = .ok (.nil, r) := by
  simp only [pyDecodeList]
  rw [hx]
  rfl

theorem pyDecodeList_step (h : Nat) (s : List Nat) (x : PyVal) (r : List Nat)
    (hx : pyDecode h s = .ok (x, r)) (hne : x ≠ .none) (xs : PyList) (r' : List Nat)
    (htl : pyDecodeList h r = .ok (xs, r')) :
    pyDecodeList (h + 1) s = .ok (.cons x xs, r') := by
  simp only [pyDecodeList]
  rw [hx]
  cases x with
  | none => exact absurd rfl hne
  | int i => rw [ebind_ok]; rw [htl]; rfl
  | str s2 => rw [ebind_ok]; rw [htl]; rfl
  | list l => rw [ebind_ok]; rw [htl]; rfl
  | dict d => rw [ebind_ok]; rw [htl]; rfl

theorem pyDecodeDict_end (h : Nat) (acc : PyDict) (s r : List Nat)
    (hx : pyDecode h s = .ok (.none, r)) :
    pyDecodeDict (h + 1) acc s = .ok (acc, r) := by
  simp only [pyDecodeDict]
  rw [hx]
  rfl

theorem pyDecodeDict_step (h : Nat) (acc : PyDict) (s kb r : List Nat)
    (hk : pyDecode h s = .ok (.str kb, r)) (v : PyVal) (r' : List Nat)
    (hv : pyDecode h r = .ok (v, r')) (res : PyDict × List Nat)
    (hrec : pyDecodeDict h (pdAssign acc (lowerBytes kb) v) r' = .ok res) :
    pyDecodeDict (h + 1) acc s = .ok res := by
  simp only [pyDecodeDict]
  rw [hk, ebind_ok]
  show (pyDecode h r >>= _) = _
  rw [hv, ebind_ok, hrec]

theorem lowerBytes_eq_self : (s : List Nat) → lowerStable s = true → lowerBytes s = s
  | [], _ => rfl
  | b :: s, h => by
      simp only [lowerStable, Bool.and_eq_true, Bool.not_eq_true', decide_eq_false_iff_not] at h
      simp only [lowerBytes, List.map_cons]
      have h1 : lowerByte b = b := by unfold lowerByte; rw [if_neg h.1]
      have h2 := lowerBytes_eq_self s h.2
      simp only [lowerBytes] at h2
      rw [h1, h2]

/-! ## Dictionary bookkeeping lemmas -/

theorem pdAppend_nil_right : (a : PyDict) → pdAppend a .nil = a
  | .nil => rfl
  | .cons k v tl => by simp [pdAppend, pdAppend_nil_right tl]
termination_by a => sizeOf a

theorem pdAppend_assoc : (a b c : PyDict) →
    pdAppend (pdAppend a b) c = pdAppend a (pdAppend b c)
  | .nil, _, _ => rfl
  | .cons k v tl, b, c => by simp [pdAppend, pdAppend_assoc tl b c]
termination_by a _ _ => sizeOf a

theorem pdKeys_append : (a b : PyDict) → pdKeys (pdAppend a b) = pdKeys a ++ pdKeys b
  | .nil, b => rfl
  | .cons k v tl, b => by simp [pdAppend, pdKeys, pdKeys_append tl b]
termination_by a _ => sizeOf a

theorem pdAssign_fresh : (acc : PyDict) → (k : List Nat) → (v : PyVal) →
    k ∉ pdKeys acc → pdAssign acc k v = pdAppend acc (.cons k v .nil)
  | .nil, k, v, _ => rfl
  | .cons k' v' tl, k, v, h => by
      simp only [pdKeys, List.mem_cons, not_or] at h
      simp only [pdAssign, if_neg (show ¬k' = k from fun hh => h.1 hh.symm), pdAppend]
      rw [pdAssign_fresh tl k v h.2]
termination_by acc _ _ => sizeOf acc

theorem keysSorted_tail (k : List Nat) (v : PyVal) (tl : PyDict)
    (h : keysSorted (.cons k v tl) = true) : keysSorted tl = true := by
  cases tl with
  | nil => rfl
  | cons k' v' tl2 =>
      simp only [keysSorted, Bool.and_eq_true] at h
      exact h.2

theorem keysSorted_head_lt : (tl : PyDict) → (k : List Nat) → (v : PyVal) →
    keysSorted (.cons k v tl) = true → ∀ kk ∈ pdKeys tl, bytesLt k kk = true
  | .nil, _, _, _ => by simp [pdKeys]
  | .cons k1 v1 tl1, k, v, h => by
      simp only [keysSorted, Bool.and_eq_true] at h
      intro kk hkk
      simp only [pdKeys, List.mem_cons] at hkk
      rcases hkk with rfl | hkk
      · exact h.1
      · exact bytesLt_trans k k1 kk h.1 (keysSorted_head_lt tl1 k1 v1 h.2 kk hkk)
termination_by tl _ _ => sizeOf tl

theorem pdSort_of_sorted : (d : PyDict) → keysSorted d = true → pdSort d = d
  | .nil, _ => rfl
  | .cons k v tl, h => by
      have htl := keysSorted_tail k v tl h
      simp only [pdSort, pdSort_of_sorted tl htl]
      cases tl with
      | nil => rfl
      | cons k' v' tl2 =>
          simp only [keysSorted, Bool.and_eq_true] at h
          simp only [pdInsert, if_pos (bytesLt_le k k' h.1)]
termination_by d => sizeOf d

/-! ## Minimum encoding length and budget bounds -/

theorem encBuffer_len2 (s : List Nat) : 2 ≤ (encBuffer s).length := by
  unfold encBuffer
  have := natToDec_ne_nil s.length
  have : 0 < (natToDec s.length).length := List.length_pos.mpr this
  simp [List.length_append]
  omega

theorem encF_len2 (f : Nat) (v : PyVal) (bs : List Nat) (he : pyEncodeF f v = .ok bs) :
    2 ≤ bs.length := by
  match f, v with
  | 0, _ => simp [pyEncodeF] at he
  | g + 1, .int i =>
      simp only [pyEncodeF, Except.ok.injEq] at he
      rw [← he]
      simp
  | g + 1, .str s =>
      simp only [pyEncodeF, Except.ok.injEq] at he
      rw [← he]
      exact encBuffer_len2 s
  | g + 1, .list xs =>
      simp only [pyEncodeF] at he
      cases hi : pyEncodeItemsF g xs with
      | error e => rw [hi, ebind_err] at he; simp at he
      | ok body =>
          rw [hi, ebind_ok] at he
          simp only [Except.ok.injEq] at he
          rw [← he]
          simp
  | g + 1, .dict kvs =>
      simp only [pyEncodeF] at he
      cases hi : pyEncodePairsF g (pdSort kvs) with
      | error e => rw [hi, ebind_err] at he; simp at he
      | ok body =>
          rw [hi, ebind_ok] at he
          simp only [Except.ok.injEq] at he
          rw [← he]
          simp
  | g + 1, .none => simp [pyEncodeF] at he

mutual
theorem costV_le : (v : PyVal) → wfVal v = true → (f : Nat) → (bs : List Nat) →
    pyEncodeF f v = .ok bs → costV v ≤ bs.length + 1
  | .int i, _, f, bs, he => by
      have h2 := encF_len2 f _ bs he
      simp only [costV]
      omega
  | .str s, _, f, bs, he => by
      have h2 := encF_len2 f _ bs he
      simp only [costV]
      omega
  | .none, hw, _, _, _ => by simp [wfVal] at hw
  | .list xs, hw, f, bs, he => by
      match f with
      | 0 => simp [pyEncodeF] at he
      | g + 1 =>
        simp only [wfVal] at hw
        simp only [pyEncodeF] at he
        cases hi : pyEncodeItemsF g xs with
        | error e => rw [hi, ebind_err] at he; simp at he
        | ok body =>
            rw [hi, ebind_ok] at he
            simp only [Except.ok.injEq] at he
            have := costL_le xs hw g body hi
            simp only [costV]
            rw [← he]
            simp only [List.length_cons, List.length_append, List.length_singleton]
            omega
  | .dict kvs, hw, f, bs, he => by
      match f with
      | 0 => simp [pyEncodeF] at he
      | g + 1 =>
        simp only [wfVal, Bool.and_eq_true] at hw
        simp only [pyEncodeF, pdSort_of_sorted kvs hw.1] at he
        cases hi : pyEncodePairsF g kvs with
        | error e => rw [hi, ebind_err] at he; simp at he
        | ok body =>
            rw [hi, ebind_ok] at he
            simp only [Except.ok.injEq] at he
            have := costD_le kvs hw.2 g body hi
            simp only [costV]
            rw [← he]
            simp only [List.length_cons, List.length_append, List.length_singleton]
            omega
theorem costL_le : (xs : PyList) → wfList xs = true → (f : Nat) → (bs : List Nat) →
    pyEncodeItemsF f xs = .ok bs → costL xs ≤ bs.length + 2
  | .nil, _, f, bs, he => by
      match f with
      | 0 => simp [pyEncodeItemsF] at he
      | g + 1 =>
        simp only [pyEncodeItemsF, Except.ok.injEq] at he
        rw [← he]
        simp [costL]
  | .cons x tl, hw, f, bs, he => by
      match f with
      | 0 => simp [pyEncodeItemsF] at he
      | g + 1 =>
        simp only [wfList, Bool.and_eq_true] at hw
        simp only [pyEncodeItemsF] at he
        cases hx : pyEncodeF g x with
        | error e => rw [hx, ebind_err] at he; simp at he
        | ok bx =>
            rw [hx, ebind_ok] at he
            cases ht : pyEncodeItemsF g tl with
            | error e => rw [ht, ebind_err] at he; simp at he
            | ok btl =>
                rw [ht, ebind_ok] at he
                simp only [Except.ok.injEq] at he
                have h1 := costV_le x hw.1 g bx hx
                have h2 := costL_le tl hw.2 g btl ht
                have h3 := encF_len2 g x bx hx
                simp only [costL]
                rw [← he]
                simp only [List.length_append]
                have hm : max (costV x) (costL tl) ≤ bx.length + btl.length + 1 :=
                  Nat.max_le.mpr ⟨by omega, by omega⟩
                omega
theorem costD_le : (kvs : PyDict) → wfDict kvs = true → (f : Nat) → (bs : List Nat) →
    pyEncodePairsF f kvs = .ok bs → costD kvs ≤ bs.length + 2
  | .nil, _, f, bs, he => by
      match f with
      | 0 => simp [pyEncodePairsF] at he
      | g + 1 =>
        simp only [pyEncodePairsF, Except.ok.injEq] at he
        rw [← he]
        simp [costD]
  | .cons k v tl, hw, f, bs, he => by
      match f with
      | 0 => simp [pyEncodePairsF] at he
      | g + 1 =>
        simp only [wfDict, Bool.and_eq_true] at hw
        simp only [pyEncodePairsF] at he
        cases hv : pyEncodeF g v with
        | error e => rw [hv, ebind_err] at he; simp at he
        | ok bv =>
            rw [hv, ebind_ok] at he
            cases ht : pyEncodePairsF g tl with
            | error e => rw [ht, ebind_err] at he; simp at he
            | ok btl =>
                rw [ht, ebind_ok] at he
                simp only [Except.ok.injEq] at he
                have h1 := costV_le v hw.1 g bv hv
                have h2 := costD_le tl hw.2 g btl ht
                have h3 := encF_len2 g v bv hv
                have h4 := encBuffer_len2 k
                simp only [costD]
                rw [← he]
                simp only [List.length_append]
                have hm : max (costV v) (costD tl) ≤
                    (encBuffer k).length + bv.length + btl.length + 1 :=
                  Nat.max_le.mpr ⟨by omega, by omega⟩
                have hm2 : max 1 (max (costV v) (costD tl)) ≤
                    (encBuffer k).length + bv.length + btl.length + 1 :=
                  Nat.max_le.mpr ⟨by omega, hm⟩
                omega
end

/-! ## The decode-of-encode round-trip -/

theorem wfVal_ne_none (x : PyVal) (h : wfVal x = true) : x ≠ .none := by
  intro hh
  rw [hh] at h
  simp [wfVal] at h

mutual
theorem pyDecode_encF : (v : PyVal) → wfVal v = true → lowVal v = true →
    (ef : Nat) → (bs : List Nat) → pyEncodeF ef v = .ok bs →
    (rest : List Nat) → (fuel : Nat) → costV v ≤ fuel →
    pyDecode fuel (bs ++ rest) = .ok (v, rest)
  | .int i, _, _, ef, bs, he, rest, fuel, hf => by
      match ef with
      | 0 => simp [pyEncodeF] at he
      | g + 1 =>
        simp only [pyEncodeF, Except.ok.injEq] at he
        match fuel with
        | 0 => simp [costV] at hf
        | h + 1 =>
          rw [← he]
          exact pyDecode_int h i rest
  | .str s, _, _, ef, bs, he, rest, fuel, hf => by
      match ef with
      | 0 => simp [pyEncodeF] at he
      | g + 1 =>
        simp only [pyEncodeF, Except.ok.injEq] at he
        match fuel with
        | 0 => simp [costV] at hf
        | h + 1 =>
          rw [← he]
          exact pyDecode_buffer h s rest
  | .none, hw, _, _, _, _, _, _, _ => by simp [wfVal] at hw
  | .list xs, hw, hl, ef, bs, he, rest, fuel, hf => by
      match ef with
      | 0 => simp [pyEncodeF] at he
      | g + 1 =>
        simp only [wfVal] at hw
        simp only [lowVal] at hl
        simp only [pyEncodeF] at he
        cases hi : pyEncodeItemsF g xs with
        | error e => rw [hi, ebind_err] at he; simp at he
        | ok body =>
            rw [hi, ebind_ok] at he
            simp only [Except.ok.injEq] at he
            match fuel with
            | 0 => simp [costV] at hf
            | h + 1 =>
              rw [← he,
                show (108 :: (body ++ [101])) ++ rest = 108 :: (body ++ 101 :: rest) by simp]
              simp only [pyDecode]
              rw [if_pos trivial]
              rw [pyDecodeList_encF xs hw hl g body hi rest h
                (by simp only [costV] at hf; omega)]
              rfl
  | .dict kvs, hw, hl, ef, bs, he, rest, fuel, hf => by
      match ef with
      | 0 => simp [pyEncodeF] at he
      | g + 1 =>
        simp only [wfVal, Bool.and_eq_true] at hw
        simp only [lowVal] at hl
        simp only [pyEncodeF, pdSort_of_sorted kvs hw.1] at he
        cases hi : pyEncodePairsF g kvs with
        | error e => rw [hi, ebind_err] at he; simp at he
        | ok body =>
            rw [hi, ebind_ok] at he
            simp only [Except.ok.injEq] at he
            match fuel with
            | 0 => simp [costV] at hf
            | h + 1 =>
              rw [← he,
                show (100 :: (body ++ [101])) ++ rest = 100 :: (body ++ 101 :: rest) by simp]
              simp only [pyDecode]
              rw [if_pos trivial]
              rw [pyDecodeDict_encF kvs hw.2 hl hw.1 .nil (by simp [pdKeys]) g body hi rest h
                (by simp only [costV] at hf; omega)]
              rfl
theorem pyDecodeList_encF : (xs : PyList) → wfList xs = true → lowList xs = true →
    (ef : Nat) → (bs : List Nat) → pyEncodeItemsF ef xs = .ok bs →
    (rest : List Nat) → (fuel : Nat) → costL xs ≤ fuel →
    pyDecodeList fuel (bs ++ 101 :: rest) = .ok (xs, rest)
  | .nil, _, _, ef, bs, he, rest, fuel, hf => by
      match ef with
      | 0 => simp [pyEncodeItemsF] at he
      | g + 1 =>
        simp only [pyEncodeItemsF, Except.ok.injEq] at he
        match fuel with
        | 0 => simp [costL] at hf
        | 1 => simp [costL] at hf
        | h + 2 =>
          rw [← he, List.nil_append]
          exact pyDecodeList_end (h + 1) _ rest (pyDecode_e h rest)
  | .cons x tl, hw, hl, ef, bs, he, rest, fuel, hf => by
      match ef with
      | 0 => simp [pyEncodeItemsF] at he
      | g + 1 =>
        simp only [wfList, Bool.and_eq_true] at hw
        simp only [lowList, Bool.and_eq_true] at hl
        simp only [pyEncodeItemsF] at he
        cases hx : pyEncodeF g x with
        | error e => rw [hx, ebind_err] at he; simp at he
        | ok bx =>
            rw [hx, ebind_ok] at he
            cases ht : pyEncodeItemsF g tl with
            | error e => rw [ht, ebind_err] at he; simp at he
            | ok btl =>
                rw [ht, ebind_ok] at he
                simp only [Except.ok.injEq] at he
                match fuel with
                | 0 => simp [costL] at hf
                | h + 1 =>
                  have hmax : max (costV x) (costL tl) ≤ h := by
                    simp only [costL] at hf
                    omega
                  have hd1 := pyDecode_encF x hw.1 hl.1 g bx hx (btl ++ 101 :: rest) h
                    (le_trans (Nat.le_max_left _ _) hmax)
                  have hd2 := pyDecodeList_encF tl hw.2 hl.2 g btl ht rest h
                    (le_trans (Nat.le_max_right _ _) hmax)
                  rw [← he, show (bx ++ btl) ++ 101 :: rest = bx ++ (btl ++ 101 :: rest) by simp]
                  exact pyDecodeList_step h _ x _ hd1 (wfVal_ne_none x hw.1) tl rest hd2
theorem pyDecodeDict_encF : (kvs : PyDict) → wfDict kvs = true → lowDict kvs = true →
    keysSorted kvs = true →
    (acc : PyDict) → (∀ kk ∈ pdKeys kvs, kk ∉ pdKeys acc) →
    (ef : Nat) → (bs : List Nat) → pyEncodePairsF ef kvs = .ok bs →
    (rest : List Nat) → (fuel : Nat) → costD kvs ≤ fuel →
    pyDecodeDict fuel acc (bs ++ 101 :: rest) = .ok (pdAppend acc kvs, rest)
  | .nil, _, _, _, acc, _, ef, bs, he, rest, fuel, hf => by
      match ef with
      | 0 => simp [pyEncodePairsF] at he
      | g + 1 =>
        simp only [pyEncodePairsF, Except.ok.injEq] at he
        match fuel with
        | 0 => simp [costD] at hf
        | 1 => simp [costD] at hf
        | h + 2 =>
          rw [← he, List.nil_append, pdAppend_nil_right]
          exact pyDecodeDict_end (h + 1) acc _ rest (pyDecode_e h rest)
  | .cons k v tl, hw, hl, hs, acc, hfr, ef, bs, he, rest, fuel, hf => by
      match ef with
      | 0 => simp [pyEncodePairsF] at he
      | g + 1 =>
        simp only [wfDict, Bool.and_eq_true] at hw
        simp only [lowDict, Bool.and_eq_true] at hl
        simp only [pyEncodePairsF] at he
        cases hv : pyEncodeF g v with
        | error e => rw [hv, ebind_err] at he; simp at he
        | ok bv =>
            rw [hv, ebind_ok] at he
            cases ht : pyEncodePairsF g tl with
            | error e => rw [ht, ebind_err] at he; simp at he
            | ok btl =>
                rw [ht, ebind_ok] at he
                simp only [Except.ok.injEq] at he
                match fuel with
                | 0 => simp [costD] at hf
                | h + 1 =>
                  have hmax : max 1 (max (costV v) (costD tl)) ≤ h := by
                    simp only [costD] at hf
                    omega
                  have hpos : 1 ≤ h := le_trans (Nat.le_max_left _ _) hmax
                  have hfv : costV v ≤ h :=
                    le_trans (le_trans (Nat.le_max_left _ _) (Nat.le_max_right _ _)) hmax
                  have hftl : costD tl ≤ h :=
                    le_trans (le_trans (Nat.le_max_right _ _) (Nat.le_max_right _ _)) hmax
                  match h, hpos with
                  | h2 + 1, _ =>
                    have hk := pyDecode_buffer h2 k (bv ++ (btl ++ 101 :: rest))
                    have hdv := pyDecode_encF v hw.1 hl.2.1 g bv hv (btl ++ 101 :: rest)
                      (h2 + 1) hfv
                    -- the freshly assigned key is the lowercased key, which equals `k`
                    have hknot : k ∉ pdKeys acc :=
                      hfr k (by simp [pdKeys])
                    have hacc : pdAssign acc (lowerBytes k) v =
                        pdAppend acc (.cons k v .nil) := by
                      rw [lowerBytes_eq_self k hl.1]
                      exact pdAssign_fresh acc k v hknot
                    have hfr2 : ∀ kk ∈ pdKeys tl, kk ∉ pdKeys (pdAppend acc (.cons k v .nil)) := by
                      intro kk hkk
                      rw [pdKeys_append]
                      simp only [List.mem_append, pdKeys, List.mem_singleton, not_or]
                      refine ⟨hfr kk (by simp [pdKeys, hkk]), ?_⟩
                      have hlt := keysSorted_head_lt tl k v hs kk hkk
                      exact fun hh => (bytesLt_ne k kk hlt) hh.symm
                    have hrec := pyDecodeDict_encF tl hw.2 hl.2.2 (keysSorted_tail k v tl hs)
                      (pdAppend acc (.cons k v .nil)) hfr2 g btl ht rest (h2 + 1) hftl
                    rw [← he,
                      show (encBuffer k ++ (bv ++ btl)) ++ 101 :: rest =
                        encBuffer k ++ (bv ++ (btl ++ 101 :: rest)) by simp]
                    refine pyDecodeDict_step (h2 + 1) acc _ k _ hk v _ hdv _ ?_
                    rw [hacc, hrec, pdAppend_assoc]
                    rfl
end

/-! ## The encoder budget is never exhausted -/

mutual
theorem pyEncodeF_no_fuel : (v : PyVal) → (f : Nat) → pySize v < f →
    pyEncodeF f v ≠ .error .fuel
  | _, 0, h => by omega
  | .int i, g + 1, _ => by simp [pyEncodeF]
  | .str s, g + 1, _ => by simp [pyEncodeF]
  | .none, g + 1, _ => by simp [pyEncodeF]
  | .list xs, g + 1, h => by
      simp only [pySize] at h
      simp only [pyEncodeF]
      cases hi : pyEncodeItemsF g xs with
      | error e =>
          rw [ebind_err]
          have hne := pyEncodeItemsF_no_fuel xs g (by omega)
          rw [hi] at hne
          exact hne
      | ok body => rw [ebind_ok]; simp
  | .dict kvs, g + 1, h => by
      simp only [pySize] at h
      simp only [pyEncodeF]
      cases hi : pyEncodePairsF g (pdSort kvs) with
      | error e =>
          rw [ebind_err]
          have hne := pyEncodePairsF_no_fuel (pdSort kvs) g (by rw [pdSort_pySize]; omega)
          rw [hi] at hne
          exact hne
      | ok body => rw [ebind_ok]; simp
termination_by v _ _ => pySize v
decreasing_by
  all_goals simp_wf
  all_goals try rw [pdSort_pySize]
  all_goals simp only [pySize]
  all_goals omega
theorem pyEncodeItemsF_no_fuel : (xs : PyList) → (f : Nat) → pySizeL xs < f →
    pyEncodeItemsF f xs ≠ .error .fuel
  | _, 0, h => by omega
  | .nil, g + 1, _ => by simp [pyEncodeItemsF]
  | .cons x tl, g + 1, h => by
      simp only [pySizeL] at h
      simp only [pyEncodeItemsF]
      cases hx : pyEncodeF g x with
      | error e =>
          rw [ebind_err]
          have hne := pyEncodeF_no_fuel x g (by omega)
          rw [hx] at hne
          exact hne
      | ok bx =>
          rw [ebind_ok]
          cases ht : pyEncodeItemsF g tl with
          | error e =>
              rw [ebind_err]
              have hne := pyEncodeItemsF_no_fuel tl g (by omega)
              rw [ht] at hne
              exact hne
          | ok btl => rw [ebind_ok]; simp
termination_by xs _ _ => pySizeL xs
decreasing_by
  all_goals simp_wf
  all_goals simp only [pySizeL]
  all_goals omega
theorem pyEncodePairsF_no_fuel : (kvs : PyDict) → (f : Nat) → pySizeD kvs < f →
    pyEncodePairsF f kvs ≠ .error .fuel
  | _, 0, h => by omega
  | .nil, g + 1, _ => by simp [pyEncodePairsF]
  | .cons k v tl, g + 1, h => by
      simp only [pySizeD] at h
      simp only [pyEncodePairsF]
      cases hv : pyEncodeF g v with
      | error e =>
          rw [ebind_err]
          have hne := pyEncodeF_no_fuel v g (by omega)
          rw [hv] at hne
          exact hne
      | ok bv =>
          rw [ebind_ok]
          cases ht : pyEncodePairsF g tl with
          | error e =>
              rw [ebind_err]
              have hne := pyEncodePairsF_no_fuel tl g (by omega)
              rw [ht] at hne
              exact hne
          | ok btl => rw [ebind_ok]; simp
termination_by kvs _ _ => pySizeD kvs
decreasing_by
  all_goals simp_wf
  all_goals simp only [pySizeD]
  all_goals omega
end

/-! ## Top-level round-trip -/

theorem decode_pyEncode (v : PyVal) (hw : wfVal v = true) (hl : lowVal v = true)
    (bs : List Nat) (he : pyEncode v = .ok bs) :
    decode_from_buffer bs = .ok v := by
  unfold decode_from_buffer
  have hc := costV_le v hw (pySize v + 1) bs he
  have h2 := pyDecode_encF v hw hl (pySize v + 1) bs he [] (2 * bs.length + 3) (by omega)
  rw [List.append_nil] at h2
  rw [h2]
  rfl

theorem keysSortedLe_tail (k : List Nat) (v : PyVal) (tl : PyDict)
    (h : keysSortedLe (.cons k v tl) = true) : keysSortedLe tl = true := by
  cases tl with
  | nil => rfl
  | cons k' v' tl2 =>
      simp only [keysSortedLe, Bool.and_eq_true] at h
      exact h.2

theorem pdInsert_sortedLe (k : List Nat) (v : PyVal) : (d : PyDict) →
    keysSortedLe d = true → keysSortedLe (pdInsert k v d) = true
  | .nil, _ => by simp [pdInsert, keysSortedLe]
  | .cons k' v' tl, h => by
      by_cases hle : bytesLe k k' = true
      · rw [show pdInsert k v (PyDict.cons k' v' tl) = .cons k v (.cons k' v' tl) from by
          simp [pdInsert, hle]]
        show (bytesLe k k' && keysSortedLe (PyDict.cons k' v' tl)) = true
        simp [hle, h]
      · have hlef : bytesLe k k' = false := by
          revert hle
          cases bytesLe k k' <;> simp
        have hk'k := bytesLe_total k k' hlef
        have htl := keysSortedLe_tail k' v' tl h
        have hins := pdInsert_sortedLe k v tl htl
        rw [show pdInsert k v (PyDict.cons k' v' tl) = .cons k' v' (pdInsert k v tl) from by
          simp [pdInsert, hlef]]
        cases tl with
        | nil =>
            show keysSortedLe (PyDict.cons k' v' (PyDict.cons k v PyDict.nil)) = true
            show (bytesLe k' k && keysSortedLe (PyDict.cons k v PyDict.nil)) = true
            simp [hk'k, keysSortedLe]
        | cons k2 v2 tl2 =>
            by_cases h2 : bytesLe k k2 = true
            · rw [show pdInsert k v (PyDict.cons k2 v2 tl2) = .cons k v (.cons k2 v2 tl2) from by
                simp [pdInsert, h2]] at hins ⊢
              show (bytesLe k' k && keysSortedLe (PyDict.cons k v (PyDict.cons k2 v2 tl2))) = true
              simp [hk'k, hins]
            · have h2f : bytesLe k k2 = false := by
                revert h2
                cases bytesLe k k2 <;> simp
              rw [show pdInsert k v (PyDict.cons k2 v2 tl2) = .cons k2 v2 (pdInsert k v tl2) from by
                simp [pdInsert, h2f]] at hins ⊢
              simp only [keysSortedLe, Bool.and_eq_true] at h
              show (bytesLe k' k2 && keysSortedLe (PyDict.cons k2 v2 (pdInsert k v tl2))) = true
              simp [h.1, hins]
termination_by d => sizeOf d

theorem pdSort_sortedLe : (d : PyDict) → keysSortedLe (pdSort d) = true
  | .nil => rfl
  | .cons k v tl => pdInsert_sortedLe k v (pdSort tl) (pdSort_sortedLe tl)
termination_by d => sizeOf d

/-! ## Claims about the bencode codec -/

/-- Claim C2, counterexample to the claim as stated: the value
`{b"A": 0}` is well formed (its single key is trivially in canonical
order), yet the decoder stores the key ASCII-lowercased (`res[k.lower()]`
in `_decode_dict`), so `decode(encode v)` returns `{b"a": 0} ≠ v` and the
decoder does not preserve the raw key bytes. -/
theorem c2_counterexample :
    keysSorted (.cons [65] (.int 0) .nil) = true ∧
    pyEncode (.dict (.cons [65] (.int 0) .nil)) = .ok [100, 49, 58, 65, 105, 48, 101, 101] ∧
    decode_from_buffer [100, 49, 58, 65, 105, 48, 101, 101] =
      .ok (.dict (.cons [97] (.int 0) .nil)) ∧
    PyVal.dict (.cons [97] (.int 0) .nil) ≠ PyVal.dict (.cons [65] (.int 0) .nil) :=
  ⟨by decide, by decide, by decide, by decide⟩

/-- Claim C2, amended: for every well-formed bencode value `v` (integers,
byte strings, lists, and dictionaries keyed by byte strings with canonically
ordered keys) all of whose dictionary keys contain no ASCII uppercase byte,
`decode(encode(v)) = v` structurally and `encode(decode(encode(v))) =
encode(v)` byte-exactly; the decoder stores dictionary keys ASCII-lowercased
(here: unchanged). -/
theorem c2_roundtrip (v : PyVal) (bs : List Nat)
    (hw : wfVal v = true) (hl : lowVal v = true) (he : pyEncode v = .ok bs) :
    decode_from_buffer bs = .ok v ∧
    ∀ w, decode_from_buffer bs = .ok w → pyEncode w = .ok bs := by
  have h1 := decode_pyEncode v hw hl bs he
  refine ⟨h1, ?_⟩
  intro w hww
  rw [h1] at hww
  injection hww with h2
  rw [← h2]
  exact he

/-- Witness for `c2_roundtrip` at the concrete value `{b"a": 5, b"b": b"x"}`. -/
theorem c2_roundtrip_witness :
    decode_from_buffer [100, 49, 58, 97, 105, 53, 101, 49, 58, 98, 49, 58, 120, 101] =
      .ok (.dict (.cons [97] (.int 5) (.cons [98] (.str [120]) .nil))) ∧
    ∀ w, decode_from_buffer [100, 49, 58, 97, 105, 53, 101, 49, 58, 98, 49, 58, 120, 101] =
      .ok w → pyEncode w = .ok [100, 49, 58, 97, 105, 53, 101, 49, 58, 98, 49, 58, 120, 101] :=
  c2_roundtrip (.dict (.cons [97] (.int 5) (.cons [98] (.str [120]) .nil)))
    [100, 49, 58, 97, 105, 53, 101, 49, 58, 98, 49, 58, 120, 101]
    (by decide) (by decide) (by decide)

/-- Claim C3: for every dictionary, the bencode encoder emits the key-value
pairs with keys in ascending lexicographic order of raw key bytes (the
output is `d`, the pairs in `pdSort` order — whose key chain is sorted —
then `e`); in particular encoding `{b"b": 1, b"a": 2}` produces exactly
`b"d1:ai2e1:bi1ee"`. -/
theorem c3_dict_canonical :
    (∀ kvs : PyDict, keysSortedLe (pdSort kvs) = true ∧
      pyEncode (.dict kvs) =
        (pyEncodePairsF (1 + pySizeD kvs) (pdSort kvs)).map
          (fun body => 100 :: (body ++ [101]))) ∧
    pyEncode (.dict (.cons [98] (.int 1) (.cons [97] (.int 2) .nil))) =
      .ok [100, 49, 58, 97, 105, 50, 101, 49, 58, 98, 105, 49, 101, 101] := by
  constructor
  · intro kvs
    refine ⟨pdSort_sortedLe kvs, ?_⟩
    show pyEncodeF (pySize (PyVal.dict kvs) + 1) (PyVal.dict kvs) = _
    rw [show pySize (PyVal.dict kvs) + 1 = (1 + pySizeD kvs) + 1 from by simp [pySize]]
    simp only [pyEncodeF]
    cases h : pyEncodePairsF (1 + pySizeD kvs) (pdSort kvs) with
    | error e => rw [ebind_err]; rfl
    | ok body => rw [ebind_ok]; rfl
  · decide

/-- Claim C9, counterexample to the claim as stated: decoding `b"i-0e"`
does not fail — `_decode_int` collects `-0` and Python `int(b"-0")`
returns `0` without any canonicality check (there is no `MalformedBencode`
in the code). -/
theorem c9_counterexample : decode_from_buffer [105, 45, 48, 101] = .ok (.int 0) := by decide

/-- Claim C9, amended: decoding `b"i-0e"` returns the integer 0 (the
decoder accepts non-canonical integer spellings), decoding `b"i42e"`
returns 42, and encoding -1000 produces exactly `b"i-1000e"`. -/
theorem c9_int_codec :
    decode_from_buffer [105, 45, 48, 101] = .ok (.int 0) ∧
    decode_from_buffer [105, 52, 50, 101] = .ok (.int 42) ∧
    pyEncode (.int (-1000)) = .ok [105, 45, 49, 48, 48, 48, 101] :=
  ⟨by decide, by decide, by decide⟩

theorem beBytes_length : (k n : Nat) → (beBytes k n).length = k
  | 0, _ => rfl
  | k + 1, n => by simp [beBytes, beBytes_length k (n / 256)]

theorem sha1_length (msg : List Nat) : (sha1 msg).length = 20 := by
  unfold sha1
  cases h : (sha1Chunks (sha1Pad msg).length (sha1Pad msg)).foldl sha1Chunk
      (1732584193, 4023233417, 2562383102, 271733878, 3285377520) with
  | mk h0 t =>
    cases t with
    | mk h1 t =>
      cases t with
      | mk h2 t =>
        cases t with
        | mk h3 h4 =>
          simp [List.length_append, beBytes_length]

theorem encodeInfo_ok (v : PyVal) (bs : List Nat) (h : encodeInfo v = .ok bs) :
    pyEncode v = .ok bs := by
  unfold encodeInfo at h
  cases he : pyEncode v with
  | error e => rw [he] at h; cases h
  | ok bs2 => rw [he] at h; injection h with h2; rw [h2]

theorem from_rawdata_hash (infoV : PyVal) (mi : MetadataInfo)
    (h : from_rawdata infoV = .ok mi) :
    ∃ eb, pyEncode infoV = .ok eb ∧ mi.info_hash = sha1 eb := by
  match infoV with
  | .int _ => cases h
  | .str _ => cases h
  | .list _ => cases h
  | .none => cases h
  | .dict d =>
    simp only [from_rawdata] at h
    cases hpl : pyIntOf (dGet d pieceLengthKey) with
    | error e => rw [hpl, ebind_err] at h; cases h
    | ok piece_length =>
    rw [hpl, ebind_ok] at h
    cases hpr : pyIntOf (some ((dGet d privateKey).getD (.int 0))) with
    | error e => rw [hpr, ebind_err] at h; cases h
    | ok priv =>
    rw [hpr, ebind_ok] at h
    cases hnm : getName (dGet d nameKey) with
    | error e => rw [hnm, ebind_err] at h; cases h
    | ok nm =>
    rw [hnm, ebind_ok] at h
    cases hen : encodeInfo (.dict d) with
    | error e => rw [hen, ebind_err] at h; cases h
    | ok eb =>
    rw [hen, ebind_ok] at h
    refine ⟨eb, encodeInfo_ok _ _ hen, ?_⟩
    cases hp : getPieces (dGet d piecesKey) with
    | error e => rw [hp, ebind_err] at h; cases h
    | ok pieces =>
    rw [hp, ebind_ok] at h
    split at h
    next lengthV _ =>
      cases hl : pyIntOf (some lengthV) with
      | error e => rw [hl, ebind_err] at h; cases h
      | ok len =>
          rw [hl, ebind_ok] at h
          injection h with h2
          rw [← h2]
    next =>
      cases hf : mdFiles (dGet d filesKey) with
      | error e => rw [hf, ebind_err] at h; cases h
      | ok ft =>
          rw [hf, ebind_ok] at h
          cases ft with
          | mk files total =>
              injection h with h2
              rw [← h2]

/-! ## Claim C1: info-hash computation -/

/-- Claim C1: for every metainfo input whose decoded root is a dictionary
containing an `info` dictionary, a successful construction computes
`info_hash` as the 20-byte SHA-1 of the bencode re-encoding of the decoded
`info` sub-tree — `SHA1(encode(decode(input).info))`, not a hash of a
substring of the raw input — and computing it twice over the same input
yields identical bytes. -/
theorem c1_info_hash (raw : List Nat) (root : PyDict) (infoV : PyVal)
    (h1 : decode_from_buffer raw = .ok (.dict root))
    (h2 : dGet root infoKey = some infoV)
    (h3 : isOkE (from_rawdata infoV) = true) :
    (∃ eb mi, pyEncode infoV = .ok eb ∧ from_rawdata infoV = .ok mi ∧
      mi.info_hash = sha1 eb ∧ mi.info_hash.length = 20) ∧
    (∀ mi mi', from_rawdata infoV = .ok mi → from_rawdata infoV = .ok mi' →
      mi.info_hash = mi'.info_hash) := by
  constructor
  · cases hfr : from_rawdata infoV with
    | error e => rw [hfr] at h3; simp [isOkE] at h3
    | ok mi =>
        obtain ⟨eb, heb, hh⟩ := from_rawdata_hash infoV mi hfr
        exact ⟨eb, mi, heb, rfl, hh, by rw [hh, sha1_length]⟩
  · intro mi mi' ha hb
    rw [ha] at hb
    injection hb with h4
    rw [h4]

/-- Witness for `c1_info_hash` at the concrete metainfo `c1RawC`: its
construction succeeds, so the claim is not vacuous there. -/
theorem c1_info_hash_witness :
    isOkE (from_rawdata c1InfoC) = true ∧
    ((∃ eb mi, pyEncode c1InfoC = .ok eb ∧ from_rawdata c1InfoC = .ok mi ∧
      mi.info_hash = sha1 eb ∧ mi.info_hash.length = 20) ∧
    (∀ mi mi', from_rawdata c1InfoC = .ok mi → from_rawdata c1InfoC = .ok mi' →
      mi.info_hash = mi'.info_hash)) :=
  ⟨by decide, c1_info_hash c1RawC c1RootC c1InfoC (by decide) (by decide) (by decide)⟩

theorem msgFromBuf_small (buf : List Nat) (pos bs : Nat) (h : bs < 4) :
    msgFromBuf buf pos bs = (.ok Option.none, min (pos + 4) buf.length) := by
  unfold msgFromBuf
  rw [if_pos (by omega)]

theorem getMessage_no_yield (buf : List Nat) (hs : Bool) :
    getMessage buf hs false = ([], if 4 ≤ buf.length then buf.drop 4 else buf) := by
  have hb : boolToNat hs < 4 := by cases hs <;> simp [boolToNat]
  unfold getMessage getMessageLoop
  simp only [Nat.sub_zero]
  by_cases h : 4 ≤ buf.length
  · rw [if_pos ⟨h, trivial⟩, msgFromBuf_small buf 0 (boolToNat hs) hb, if_pos h]
    show (([] : List Msg), buf.drop (min (0 + 4) buf.length)) = ([], buf.drop 4)
    rw [show min (0 + 4) buf.length = 4 from by omega]
  · rw [if_neg (fun hc => h hc.1), if_neg h]
    show (([] : List Msg), buf.drop 0) = ([], buf)
    rw [List.drop_zero]

/-! ## Claims C4 and C6 -/

/-- Claim C4 (code bug, evaluated): `Peer.get_message` passes
`self.handshaked` — a bool, so 0 or 1 — as `from_buf`'s `buf_size`, which
is compared against `4 + length ≥ 4`; every frame therefore looks partial
and the decoder never yields a single message.  Worse, `from_buf` has
already consumed the 4-byte length prefix without rewinding, and the final
buffer compaction discards those bytes: on the complete 5-byte Choke frame
`00 00 00 01 00` (with `handshaked = True`) nothing is yielded and the
buffer is left holding `00` — the frame's start is lost.  In general no
buffer and no handshake state ever yields a message. -/
theorem c4_decoder_never_yields :
    getMessage [0, 0, 0, 1, 0] true false = ([], [0]) ∧
    ∀ (buf : List Nat) (handshaked : Bool),
      (getMessage buf handshaked false).1 = [] := by
  refine ⟨by decide, ?_⟩
  intro buf hs
  rw [getMessage_no_yield buf hs]

/-- Claim C6, counterexample to the claim as stated: a 68-byte handshake
whose `pstr` is 19 `X` bytes — not the protocol literal — is accepted by
`Handshake._from_bytes`, because only `pstrlen` is looked up in
`PROTOCOL_VERS`; the `pstr` bytes are never compared. -/
theorem c6_counterexample :
    ((19 :: (List.replicate 19 88 ++ List.replicate 48 0)).drop 1).take 19 ≠ protocolName ∧
    hsFromBytes (19 :: (List.replicate 19 88 ++ List.replicate 48 0)) =
      .ok (.handshake 0 (List.replicate 20 0) (List.replicate 20 0)) :=
  ⟨by decide, by decide⟩

/-- Claim C6, amended: for every received handshake buffer of at least 68
bytes, parsing rejects it with the unsupported-protocol error
(`WrongMessageError`) exactly when the first byte (`pstrlen`) is not 19;
when `pstrlen` is 19 the handshake is accepted regardless of the `pstr`
bytes, which are never compared to the literal. -/
theorem c6_handshake_length_only (buf : List Nat) (h68 : 68 ≤ buf.length) :
    (buf.getD 0 0 = 19 → ∃ m, hsFromBytes buf = .ok m) ∧
    (buf.getD 0 0 ≠ 19 → hsFromBytes buf = .error .wrongMessage) := by
  match buf, h68 with
  | b :: bs, h68 =>
    simp only [List.getD_cons_zero]
    constructor
    · intro hb
      refine ⟨.handshake (beVal (((b :: bs).drop 20).take 8)) (((b :: bs).drop 28).take 20)
        (((b :: bs).drop 48).take 20), ?_⟩
      simp only [hsFromBytes]
      rw [if_pos hb, if_pos h68]
    · intro hb
      simp only [hsFromBytes]
      rw [if_neg hb]

/-- Witness for `c6_handshake_length_only` at a well-formed handshake
(`pstrlen` 19, `pstr` the protocol literal). -/
theorem c6_handshake_witness :
    ((19 :: (protocolName ++ List.replicate 48 1)).getD 0 0 = 19 →
      ∃ m, hsFromBytes (19 :: (protocolName ++ List.replicate 48 1)) = .ok m) ∧
    ((19 :: (protocolName ++ List.replicate 48 1)).getD 0 0 ≠ 19 →
      hsFromBytes (19 :: (protocolName ++ List.replicate 48 1)) = .error .wrongMessage) :=
  c6_handshake_length_only (19 :: (protocolName ++ List.replicate 48 1)) (by decide)

/-! ## Claim C5 -/

/-- Claim C5, counterexample to the claim as stated: a UDP datagram that
happens to parse as bencode — here `b"d8:intervali1800ee"` — bypasses the
transaction-id check entirely: its BEP-15 transaction-id field (bytes
4–8, here `b"nter"`) differs from the sent id 1, yet `Response.build`
produces an `AnnounceResponse` and `_send_request` adopts it on the first
attempt instead of dropping it. -/
theorem c5_counterexample :
    beVal (([100, 56, 58, 105, 110, 116, 101, 114, 118, 97, 108, 105, 49, 56, 48, 48, 101,
      101].drop 4).take 4) ≠ 1 ∧
    buildResponse [100, 56, 58, 105, 110, 116, 101, 114, 118, 97, 108, 105, 49, 56, 48, 48,
      101, 101] 1 = .ok (some (.announceR ⟨.int 1800, .int 0, .int 0, .str [], []⟩)) ∧
    udpSendRequest 1 1 (fun _ => some [100, 56, 58, 105, 110, 116, 101, 114, 118, 97, 108,
      105, 49, 56, 48, 48, 101, 101]) =
      .ok (.announceR ⟨.int 1800, .int 0, .int 0, .str [], []⟩) :=
  ⟨by decide, by decide, by decide⟩

/-- Claim C5, amended: for every UDP tracker exchange, a response datagram
that does not parse as bencode (raising one of the caught decode errors)
and whose transaction_id field does not equal the transaction_id sent in
the request is dropped silently — `build` produces no response from it —
and the sender treats it exactly as a missed reply: the retry loop
behaves identically to receiving nothing on that attempt.  (Datagrams
that parse as bencode bypass the transaction-id check, see the
counterexample.) -/
theorem c5_transaction_id_drop (d : List Nat) (T : Nat) (e : DecErr)
    (hdec : decode_from_buffer d = .error e) (hcaught : e ≠ .fuel)
    (htid : beVal ((d.drop 4).take 4) ≠ T) :
    buildResponse d T = .ok Option.none ∧
    ∀ (reqAction i : Nat) (recv recv' : Nat → Option (List Nat)) (left : Nat),
      recv i = some d → recv' i = Option.none → (∀ j, j ≠ i → recv' j = recv j) →
      sendLoopAux T reqAction recv left = sendLoopAux T reqAction recv' left := by
  have hbuild : buildResponse d T = .ok Option.none := by
    unfold buildResponse
    rw [hdec]
    cases e with
    | fuel => exact absurd rfl hcaught
    | eof =>
        by_cases hlen : 8 ≤ d.length
        · rw [if_pos hlen, if_neg htid]
        · rw [if_neg hlen]
    | valueErr =>
        by_cases hlen : 8 ≤ d.length
        · rw [if_pos hlen, if_neg htid]
        · rw [if_neg hlen]
    | typeErr =>
        by_cases hlen : 8 ≤ d.length
        · rw [if_pos hlen, if_neg htid]
        · rw [if_neg hlen]
  refine ⟨hbuild, ?_⟩
  intro reqAction i recv recv' left hi hi' hj
  induction left with
  | zero => rfl
  | succ l ih =>
      simp only [sendLoopAux]
      by_cases hidx : 9 - (l + 1) = i
      · rw [hidx, hi, hi']
        simp only [sendRecvHandle]
        rw [hbuild]
        simp only [sendHandle]
        exact ih
      · rw [hj (9 - (l + 1)) hidx, ih]

/-- Witness for `c5_transaction_id_drop`: an 8-byte binary connect reply
with transaction id 2 when 1 was sent. -/
theorem c5_transaction_id_drop_witness :
    buildResponse [0, 0, 0, 0, 0, 0, 0, 2] 1 = .ok Option.none ∧
    ∀ (reqAction i : Nat) (recv recv' : Nat → Option (List Nat)) (left : Nat),
      recv i = some [0, 0, 0, 0, 0, 0, 0, 2] → recv' i = Option.none →
      (∀ j, j ≠ i → recv' j = recv j) →
      sendLoopAux 1 reqAction recv left = sendLoopAux 1 reqAction recv' left :=
  c5_transaction_id_drop [0, 0, 0, 0, 0, 0, 0, 2] 1 .valueErr (by decide) (by decide) (by decide)

theorem findSucc_none {α β : Type} (meth : α → TrkOutcome β) :
    ∀ lvl : List α, (∀ x ∈ lvl, isSucc (meth x) = false) →
      findSucc meth lvl = Option.none
  | [], _ => rfl
  | t :: ts, h => by
      have ht := h t (List.mem_cons_self t ts)
      have ih := findSucc_none meth ts fun x hx => h x (List.mem_cons_of_mem t hx)
      cases hm : meth t with
      | raised => simp [findSucc, hm, ih]
      | result o =>
          cases o with
          | none => simp [findSucc, hm, ih]
          | some r => rw [hm] at ht; simp [isSucc] at ht

theorem eraseIdx_append_len {γ : Type} (t : γ) (l2 : List γ) :
    ∀ l1 : List γ, (l1 ++ t :: l2).eraseIdx l1.length = l1 ++ l2
  | [] => rfl
  | a :: l1 => by
      simp only [List.cons_append, List.length_cons, List.eraseIdx, List.append_eq]
      rw [eraseIdx_append_len t l2 l1]

theorem findSucc_at {α β : Type} (meth : α → TrkOutcome β) (t : α) (r : β)
    (l2 : List α) (ht : meth t = .result (some r)) :
    ∀ l1 : List α, (∀ x ∈ l1, isSucc (meth x) = false) →
      findSucc meth (l1 ++ t :: l2) = some (t, l1.length, r)
  | [], _ => by simp [findSucc, ht]
  | a :: l1, h => by
      have ha := h a (List.mem_cons_self a l1)
      have ih := findSucc_at meth t r l2 ht l1 fun x hx => h x (List.mem_cons_of_mem a hx)
      cases hm : meth a with
      | raised => simp [findSucc, hm, ih]
      | result o =>
          cases o with
          | none => simp [findSucc, hm, ih]
          | some s => rw [hm] at ha; simp [isSucc] at ha

theorem torrentSendReq_all_fail {α β : Type} (meth : α → TrkOutcome β) :
    ∀ tiers : List (List α), (∀ lvl ∈ tiers, ∀ x ∈ lvl, isSucc (meth x) = false) →
      torrentSendReq meth tiers = (tiers, Option.none)
  | [], _ => rfl
  | lvl :: rest, h => by
      have h1 := h lvl (List.mem_cons_self lvl rest)
      have ih := torrentSendReq_all_fail meth rest fun l hl => h l (List.mem_cons_of_mem lvl hl)
      simp only [torrentSendReq, findSucc_none meth lvl h1, ih]

/-- C7: during `Torrent._send_request` tiers are tried in order and trackers
within a tier in current order; on the first tracker `t` whose call returns
a truthy result (every tracker before it, in earlier tiers or earlier in
`t`'s tier, having failed), `t` is moved to the front of its own tier, the
rest of that tier and all other tiers keep their order, and `t`'s result is
returned. -/
theorem c7_tier_promotion {α β : Type} (meth : α → TrkOutcome β)
    (pre : List (List α)) (l1 l2 : List α) (t : α) (r : β) (post : List (List α))
    (hpre : ∀ lvl ∈ pre, ∀ x ∈ lvl, isSucc (meth x) = false)
    (hl1 : ∀ x ∈ l1, isSucc (meth x) = false)
    (ht : meth t = .result (some r)) :
    torrentSendReq meth (pre ++ (l1 ++ t :: l2) :: post) =
      (pre ++ (t :: (l1 ++ l2)) :: post, some r) := by
  revert hpre
  induction pre with
  | nil =>
      intro _
      simp only [List.nil_append, torrentSendReq,
        findSucc_at meth t r l2 ht l1 hl1, eraseIdx_append_len t l2 l1]
  | cons lvl pre ih =>
      intro hpre
      have h1 := hpre lvl (List.mem_cons_self lvl pre)
      have ih' := ih fun l hl => hpre l (List.mem_cons_of_mem lvl hl)
      simp only [List.cons_append, torrentSendReq, findSucc_none meth lvl h1,
        List.append_eq, ih']

/-- Witness for `c7_tier_promotion`: the single tier `[0, 1, 2]` where
tracker 0 raises and tracker 1 succeeds with 42 is left as `[1, 0, 2]`. -/
theorem c7_tier_promotion_witness :
    torrentSendReq c7Meth [[0, 1, 2]] = ([[1, 0, 2]], some 42) :=
  c7_tier_promotion c7Meth [] [0] [2] 1 42 []
    (fun lvl hl => absurd hl (List.not_mem_nil lvl))
    (by intro x hx; rw [List.mem_singleton] at hx; subst hx; rfl)
    rfl

/-- C10: if every tracker in every tier fails (raises or returns a falsy
result), `Torrent.announce` leaves `last_announce_time`, `interval`,
`seeders`, `leechers` and the peer set unchanged. -/
theorem c10_announce_all_fail {α : Type} (meth : α → TrkOutcome AnnounceR)
    (st : TorrentSt α) (now : Int)
    (hfail : ∀ lvl ∈ st.announce_list, ∀ x ∈ lvl, isSucc (meth x) = false) :
    (torrentAnnounce meth st now).last_announce_time = st.last_announce_time ∧
    (torrentAnnounce meth st now).interval = st.interval ∧
    (torrentAnnounce meth st now).seeders = st.seeders ∧
    (torrentAnnounce meth st now).leechers = st.leechers ∧
    (torrentAnnounce meth st now).peers = st.peers := by
  have h := torrentSendReq_all_fail meth st.announce_list hfail
  simp [torrentAnnounce, h]

/-- Witness for `c10_announce_all_fail`: a tier list `[[0, 1]]` whose
trackers all raise leaves the concrete state's fields unchanged. -/
theorem c10_announce_all_fail_witness :
    (torrentAnnounce c10Meth c10St 99).last_announce_time = c10St.last_announce_time ∧
    (torrentAnnounce c10Meth c10St 99).interval = c10St.interval ∧
    (torrentAnnounce c10Meth c10St 99).seeders = c10St.seeders ∧
    (torrentAnnounce c10Meth c10St 99).leechers = c10St.leechers ∧
    (torrentAnnounce c10Meth c10St 99).peers = c10St.peers :=
  c10_announce_all_fail c10Meth c10St 99 (fun _ _ _ _ => rfl)

/-- C8 counterexample: a Ready-state peer (socket open, handshaked, not
destroyed) with `am_choking` set receives `Interested`; the session sends
`UnChoke` but `am_choking` is still `true` afterwards, since `do_unchoke`
never assigns `am_choking = False`. -/
theorem c8_counterexample :
    handleInterested ⟨true, true, false, true, false⟩ true true =
      (⟨true, true, false, true, true⟩, [.unChoke]) ∧
    (handleInterested ⟨true, true, false, true, false⟩ true true).1.am_choking = true := by
  decide

/-- C8 (amended): in the Ready state (handshaked, not destroyed, socket
open), on receiving an `Interested` message with the send succeeding, the
session sets `peer_interested` to `true` and sends exactly one `UnChoke`
message iff `am_choking` is `true`; `am_choking` itself is left unchanged
(it is never set to `false`). -/
theorem c8_interested_unchoke (st : PeerSt)
    (hs : st.handshaked = true) (hd : st.destroyed = false)
    (hsock : st.sockOpen = true) (connectOk : Bool) :
    (handleInterested st connectOk true).1.peer_interested = true ∧
    (handleInterested st connectOk true).2 =
      (if st.am_choking then [Msg.unChoke] else []) ∧
    (handleInterested st connectOk true).1.am_choking = st.am_choking := by
  cases st with
  | mk so hsk d ac pi =>
      simp only at hs hd hsock
      subst hs; subst hd; subst hsock
      cases ac <;>
        simp [handleInterested, do_unchoke, send_message]

/-- Witness for `c8_interested_unchoke` at the concrete Ready state with
`am_choking` set. -/
theorem c8_interested_unchoke_witness :
    (handleInterested ⟨true, true, false, true, false⟩ true true).1.peer_interested = true ∧
    (handleInterested ⟨true, true, false, true, false⟩ true true).2 =
      (if (⟨true, true, false, true, false⟩ : PeerSt).am_choking then [Msg.unChoke] else []) ∧
    (handleInterested ⟨true, true, false, true, false⟩ true true).1.am_choking =
      (⟨true, true, false, true, false⟩ : PeerSt).am_choking :=
  c8_interested_unchoke ⟨true, true, false, true, false⟩ rfl rfl rfl true

end BTor
